import Mathlib

/-!
# hdrv image core: data model, pixel accessor, downscale operator, format adapters

A shallow embedding of `viewer/image/Image.hpp` and `viewer/image/Image.cpp`.

Conventions of the embedding:

* `int` and `size_t` values are unbounded integers (`Int`, `Nat`); arithmetic overflow is
  outside the model.
* A `float` sample is an exact rational number. The object representation that `memcpy`
  moves between a `float` and the byte buffer is a parameter (`FloatCodec`): four buffer
  cells per sample, and copying a sample out and back in returns the same sample.
* A C++ exception that leaves a function is `Except.error`; a returned `Result<T>` is the
  structure `Result`.
* The external codec libraries (pfm, pic, OpenEXR) are modelled by the sequence of header
  fields and scanlines they deliver or receive.
-/

namespace hdrv

/-! ## Result -/

/-- The class `Result<T>`: an error message and an optional value. -/
structure Result (T : Type) where
  error_ : String
  value_ : Option T
deriving DecidableEq, Repr

namespace Result

variable {T : Type}

/-- Constructor `Result(T && v)`. -/
def ok (v : T) : Result T := ⟨"", some v⟩

/-- Constructor `Result(std::string const& error)`. -/
def err (e : String) : Result T := ⟨e, none⟩

/-- The expression `Result<bool>("...")` with a string literal as argument: overload
resolution selects `Result(bool &&)`, because the literal converts to `bool` by a standard
conversion (array to pointer, then a non-null pointer to `true`), which outranks the
user-defined conversion to `std::string`. The result holds the value `true` and an empty
error message. For `Result<Image>("...")` no such conversion exists and the error
constructor `err` is the one selected. -/
def ofLiteralBool (_literal : String) : Result Bool := ok true

/-- Conversion `operator bool() const`. -/
def toBool (r : Result T) : Bool := r.value_.isSome

/-- Accessor `error()`. -/
def error (r : Result T) : String := r.error_

end Result

/-! ## Float representation -/

/-- The object representation of a `float`: `toBytes` is what `memcpy` writes into the
buffer, `ofBytes` what it reads back. -/
structure FloatCodec where
  toBytes : ℚ → List Nat
  ofBytes : List Nat → ℚ
  length_toBytes : ∀ q, (toBytes q).length = 4
  ofBytes_toBytes : ∀ q, ofBytes (toBytes q) = q

/-- Read of `sizeof(float)` bytes at byte offset `off` of a buffer
(`memcpy(&result, data + off, sizeof(float))`). -/
def readFloat (fc : FloatCodec) (data : List Nat) (off : Int) : ℚ :=
  if 0 ≤ off then fc.ofBytes ((data.drop off.toNat).take 4) else fc.ofBytes []

/-- Write of a float at byte offset `off` of a buffer
(`memcpy(data + off, &v, sizeof(float))`). -/
def writeFloat (fc : FloatCodec) (data : List Nat) (off : Nat) (v : ℚ) : List Nat :=
  data.take off ++ fc.toBytes v ++ data.drop (off + 4)

/-- Read of one byte widened to a float (`(float)data[i]`). -/
def readByte (data : List Nat) (i : Int) : ℚ :=
  if 0 ≤ i then ((data.getD i.toNat 0 : Nat) : ℚ) else 0

/-! ## Image data model -/

/-- The enumeration `Image::Format`. -/
inductive Format where
  | Byte
  | Float
deriving DecidableEq, Repr

/-- The structure `Image::Layer`. -/
structure Layer where
  name : String
  channels : List String
  format : Format
  data : List Nat
deriving DecidableEq, Repr

/-- Size of one sample of a layer: `sizeof(uint8_t)` or `sizeof(float)`. -/
def Layer.pixelSize (l : Layer) : Int :=
  if l.format = Format.Byte then 1 else 4

/-- The class `Image`: `width_`, `height_`, `layers_`. -/
structure Image where
  width : Int
  height : Int
  layers : List Layer
deriving DecidableEq, Repr

/-- The call `std::vector::resize(n)`: truncate, or pad with value-initialised elements. -/
def resize {α : Type} (l : List α) (n : Nat) (d : α) : List α :=
  l.take n ++ List.replicate (n - l.length) d

namespace Image

/-- Constructor `Image(int w, int h, int c, Format f, std::vector<uint8_t>&& data)`. -/
def mk1 (w h c : Int) (f : Format) (data : List Nat) : Image :=
  { width := w
    height := h
    layers := [{ name := "default", channels := resize ["R", "G", "B", "A"] c.toNat "",
                 format := f, data := data }] }

/-- The call `layers_.at(layer)`: throws `std::out_of_range` for a missing layer. -/
def layerAt (img : Image) (layer : Nat) : Except String Layer :=
  match img.layers[layer]? with
  | some l => Except.ok l
  | none => Except.error "out_of_range"

/-- Accessor `channels(layer)`. -/
def channels (img : Image) (layer : Nat) : Except String Int := do
  let l ← img.layerAt layer
  pure (l.channels.length : Int)

/-- Accessor `pixelSizeInBytes(layer)`. -/
def pixelSizeInBytes (img : Image) (layer : Nat) : Except String Int := do
  let l ← img.layerAt layer
  pure (l.pixelSize)

/-- Accessor `sizeInBytes(layer)`. -/
def sizeInBytes (img : Image) (layer : Nat) : Except String Int := do
  let l ← img.layerAt layer
  pure (img.width * img.height * (l.channels.length : Int) * l.pixelSize)

/-- Accessor `format(layer)`. -/
def format (img : Image) (layer : Nat) : Except String Format := do
  let l ← img.layerAt layer
  pure l.format

/-- Accessor `layerCount()`. -/
def layerCount (img : Image) : Nat := img.layers.length

/-- Accessor `layerName(layer)`. -/
def layerName (img : Image) (layer : Nat) : Except String String := do
  let l ← img.layerAt layer
  pure l.name

/-- The sample index `value` computes:
`((height() - y - 1) * width() + x) * channels(layer) + channel`. -/
def sampleIndex (img : Image) (l : Layer) (x y channel : Int) : Int :=
  ((img.height - y - 1) * img.width + x) * (l.channels.length : Int) + channel

/-- The body of `value` once the layer is resolved: a `memcpy` of four bytes at byte
offset `i * sizeof(float)` for a Float layer, the byte `data[i]` widened otherwise. -/
def valueIn (fc : FloatCodec) (img : Image) (l : Layer) (x y channel : Int) : ℚ :=
  let i := img.sampleIndex l x y channel
  if l.format = Format.Float then readFloat fc l.data (i * 4) else readByte l.data i

/-- The method `Image::value(x, y, channel, layer)`. -/
def value (fc : FloatCodec) (img : Image) (x y channel : Int) (layer : Nat) :
    Except String ℚ := do
  let l ← img.layerAt layer
  pure (img.valueIn fc l x y channel)

/-- The accumulation of `avg` in `scaleByHalf` for output cell `(x, y, c)`: the two
nested loops over `xo` and `yo`, then `avg /= 4.f`. -/
def scaleAvg (fc : FloatCodec) (img : Image) (l : Layer) (x y c : Int) : ℚ :=
  ([0, 1].foldl (fun avg (xo : Int) =>
    [0, 1].foldl (fun avg (yo : Int) =>
      avg + img.valueIn fc l (min (x * 2 + xo) (img.width - 1))
        (max (img.height - y * 2 - yo - 1) 0) c) avg) 0) / 4

/-- The expression `outputOffset` of `scaleByHalf`. -/
def outputOffset (l : Layer) (newWidth : Int) (x y c : Nat) : Nat :=
  y * l.channels.length * newWidth.toNat + x * l.channels.length + c

/-- The three nested loops of `scaleByHalf` that fill `newdata`. -/
def scaleLoops (fc : FloatCodec) (img : Image) (l : Layer) (newWidth newHeight : Int)
    (newdata : List Nat) : List Nat :=
  (List.range newWidth.toNat).foldl (fun nd x =>
    (List.range newHeight.toNat).foldl (fun nd y =>
      (List.range l.channels.length).foldl (fun nd c =>
        writeFloat fc nd (outputOffset l newWidth x y c * 4) (img.scaleAvg fc l x y c))
        nd) nd) newdata

/-- The method `Image::scaleByHalf()`. -/
def scaleByHalf (fc : FloatCodec) (img : Image) : Except String (Result Image) :=
  if img.width ≤ 1 ∧ img.height ≤ 1 then
    pure (Result.err "Image is too small for further downscaling by half.")
  else do
    let newWidth := max (img.width.tdiv 2) 1
    let newHeight := max (img.height.tdiv 2) 1
    let l ← img.layerAt 0
    let newdata := List.replicate
      (newWidth * newHeight * (l.channels.length : Int) * l.pixelSize).toNat 0
    if l.format = Format.Float then
      let newdata := scaleLoops fc img l newWidth newHeight newdata
      pure (Result.ok (mk1 newWidth newHeight (l.channels.length : Int) l.format newdata))
    else
      pure (Result.err "Scaling non-floating-point images is not supported.")

end Image

/-! ## Floating-point map adapter (PFM) -/

/-- The pixel layouts of the floating-point map container (`pfm::format_type`). -/
inductive PfmFormat where
  | color_format
  | grayscale_format
deriving DecidableEq, Repr

/-- The byte-order flag of the floating-point map container (`pfm::byte_order_type`). -/
inductive PfmByteOrder where
  | host_byte_order
  | reversed_byte_order
deriving DecidableEq, Repr

/-- What `pfm::pfm_input_file` delivers: the header fields and then the scanlines in
stream order, each scanline being the packed floats of one row. -/
structure PfmInput where
  format : PfmFormat
  width : Nat
  height : Nat
  byteOrder : PfmByteOrder
  scale : ℚ
  scanlines : List (List ℚ)

/-- The operations `storePFM` performs on its destination, in order. -/
inductive PfmWrite where
  | openStream (path : String)
  | write_header (format : PfmFormat) (width height : Nat) (byteOrder : PfmByteOrder)
      (scale : ℚ)
  | write_color_scanline (floats : List ℚ)

/-- The deposit of consecutive floats at float index `i` onwards (`&d[i]` handed to a
scanline read). -/
def writeFloats (fc : FloatCodec) : List Nat → Nat → List ℚ → List Nat
  | data, _, [] => data
  | data, i, v :: vs => writeFloats fc (writeFloat fc data (i * 4) v) (i + 1) vs

/-- The call `read_color_scanline` / `read_grayscale_scanline` number `y` of a stream: it
delivers scanline `y`, and throws when the stream holds no complete scanline of `n`
floats there. -/
def readPfmScanline (file : PfmInput) (y n : Nat) : Except String (List ℚ) :=
  match file.scanlines[y]? with
  | some row => if row.length = n then Except.ok row else Except.error "pfm: read failed"
  | none => Except.error "pfm: read failed"

/-- The scanline loop of `loadPFM`: row `y` of the stream goes to `&d[y * w * c]`. -/
def loadPFMRows (fc : FloatCodec) (file : PfmInput) (w c : Nat) :
    List Nat → List Nat → Except String (List Nat)
  | data, [] => Except.ok data
  | data, y :: ys =>
    match readPfmScanline file y (w * c) with
    | Except.error e => Except.error e
    | Except.ok row => loadPFMRows fc file w c (writeFloats fc data (y * w * c) row) ys

/-- The function `Image::loadPFM(std::istream&)`. -/
def loadPFM (fc : FloatCodec) (file : PfmInput) : Result Image :=
  let c : Nat := if file.format = PfmFormat.color_format then 3 else 1
  let w := file.width
  let h := file.height
  let data := List.replicate (w * h * c * 4) 0
  match loadPFMRows fc file w c data (List.range h) with
  | Except.ok data => Result.ok (Image.mk1 w h c Format.Float data)
  | Except.error e => Result.err ("PFM loader: " ++ e)

/-- One scanline of `storePFM`: for every `x`, channels 0, 1 and 2 of pixel `(x, y)`. -/
def storePFMScanline (fc : FloatCodec) (img : Image) (l : Layer) (y : Nat) : List ℚ :=
  ((List.range img.width.toNat).map fun (x : Nat) =>
    [img.valueIn fc l x y 0, img.valueIn fc l x y 1, img.valueIn fc l x y 2]).flatten

/-- The method `Image::storePFM(path, layer)` with the operations it performs on the
destination. Width and height are those of the data model (non-negative). The guard
returns `Result<bool>("Cannot store LDR image as HDR image.")`, see
`Result.ofLiteralBool`. -/
def Image.storePFM (fc : FloatCodec) (img : Image) (path : String) (layer : Nat) :
    Except String (Result Bool × List PfmWrite) := do
  let l ← img.layerAt layer
  if l.format ≠ Format.Float then
    pure (Result.ofLiteralBool "Cannot store LDR image as HDR image.", [])
  else
    pure (Result.ok true,
      [PfmWrite.openStream path,
       PfmWrite.write_header PfmFormat.color_format img.width.toNat img.height.toNat
         PfmByteOrder.host_byte_order 1] ++
      (List.range img.height.toNat).reverse.map fun y =>
        PfmWrite.write_color_scanline (storePFMScanline fc img l y))

/-- The scanlines among a sequence of destination operations, in order. -/
def pfmScanlinesOf : List PfmWrite → List (List ℚ)
  | [] => []
  | PfmWrite.write_color_scanline fl :: rest => fl :: pfmScanlinesOf rest
  | _ :: rest => pfmScanlinesOf rest

/-- The stream a reader is delivered after the given destination operations: header
fields and scanlines pass through the codec unchanged. -/
def pfmFileOf : List PfmWrite → Option PfmInput
  | PfmWrite.openStream _ :: PfmWrite.write_header f w h bo s :: rest =>
    some { format := f, width := w, height := h, byteOrder := bo, scale := s,
           scanlines := pfmScanlinesOf rest }
  | _ => none

/-! ## Radiance adapter (PIC) -/

/-- The encoding variants of the Radiance container (`pic::format_type`). -/
inductive PicFormat where
  | _32_bit_rle_rgbe
  | _32_bit_rle_xyze
deriving DecidableEq, Repr

/-- The orientations of the Radiance resolution string (`pic::resolution_string_type`). -/
inductive PicResolution where
  | neg_y_pos_x
  | neg_y_neg_x
  | pos_y_neg_x
  | pos_y_pos_x
  | pos_x_pos_y
  | neg_x_pos_y
  | neg_x_neg_y
  | pos_x_neg_y
deriving DecidableEq, Repr

/-- One RGBE pixel (`pic::pixel`): three mantissa bytes and the shared exponent. -/
structure Rgbe where
  r : Nat
  g : Nat
  b : Nat
  e : Nat
deriving DecidableEq, Repr

/-- The shared-exponent conversion routines of the pic library, `pic::rgbe_to_rgb` and
`pic::rgb_to_rgbe`, taken as given. -/
structure RgbeCodec where
  rgbe_to_rgb : Rgbe → ℚ × ℚ × ℚ
  rgb_to_rgbe : ℚ × ℚ × ℚ → Rgbe

/-- What `pic::pic_input_file` delivers: the information header, the resolution string
and then the scanlines in stream order. -/
structure PicInput where
  format : PicFormat
  exposure : ℚ
  resolutionType : PicResolution
  width : Nat
  height : Nat
  scanlines : List (List Rgbe)

/-- The reads `loadPIC` performs on its stream. -/
inductive PicRead where
  | read_information_header
  | read_resolution_string
  | read_scanline
deriving DecidableEq, Repr

/-- The operations `storePIC` performs on its destination, in order. -/
inductive PicWrite where
  | openStream (path : String)
  | write_information_header (format : PicFormat) (exposure : ℚ)
  | write_resolution_string (resolutionType : PicResolution) (width height : Nat)
  | write_scanline (pixels : List Rgbe)

/-- The call `read_scanline` number `y` of a stream: it delivers scanline `y`, and throws
when the stream holds no complete scanline of `w` pixels there. -/
def readPicScanline (file : PicInput) (y w : Nat) : Except String (List Rgbe) :=
  match file.scanlines[y]? with
  | some row => if row.length = w then Except.ok row else Except.error "pic: read failed"
  | none => Except.error "pic: read failed"

/-- The inner loop of `loadPIC` over one scanline, from column `x` on:
`index = (h - y - 1) * 3 * w + x * 3`, and the decoded pixel goes to `d[index]`,
`d[index + 1]`, `d[index + 2]`. -/
def loadPICPixels (fc : FloatCodec) (rc : RgbeCodec) (w h y : Nat) :
    List Nat → Nat → List Rgbe → List Nat
  | data, _, [] => data
  | data, x, p :: ps =>
    let index := (h - y - 1) * 3 * w + x * 3
    let rgb := rc.rgbe_to_rgb p
    let data := writeFloat fc data (index * 4) rgb.1
    let data := writeFloat fc data ((index + 1) * 4) rgb.2.1
    let data := writeFloat fc data ((index + 2) * 4) rgb.2.2
    loadPICPixels fc rc w h y data (x + 1) ps

/-- The scanline loop of `loadPIC`, with the scanline reads it performs. -/
def loadPICRows (fc : FloatCodec) (rc : RgbeCodec) (file : PicInput) (w h : Nat) :
    List Nat → List Nat → Except String (List Nat) × List PicRead
  | data, [] => (Except.ok data, [])
  | data, y :: ys =>
    match readPicScanline file y w with
    | Except.error e => (Except.error e, [PicRead.read_scanline])
    | Except.ok row =>
      let r := loadPICRows fc rc file w h (loadPICPixels fc rc w h y data 0 row) ys
      (r.1, PicRead.read_scanline :: r.2)

/-- The function `Image::loadPIC(std::istream&)` with the reads it performs. -/
def loadPICTrace (fc : FloatCodec) (rc : RgbeCodec) (file : PicInput) :
    Result Image × List PicRead :=
  if file.format ≠ PicFormat._32_bit_rle_rgbe then
    (Result.err "Radiance PIC loader: format not supported.",
      [PicRead.read_information_header])
  else if file.resolutionType ≠ PicResolution.neg_y_pos_x then
    (Result.err "Radiance PIC loader: resolution type not supported.",
      [PicRead.read_information_header, PicRead.read_resolution_string])
  else
    let w := file.width
    let h := file.height
    let data := List.replicate (w * h * 3 * 4) 0
    let r := loadPICRows fc rc file w h data (List.range h)
    (match r.1 with
      | Except.ok data => Result.ok (Image.mk1 w h 3 Format.Float data)
      | Except.error e => Result.err ("Radiance PIC loader: " ++ e),
     PicRead.read_information_header :: PicRead.read_resolution_string :: r.2)

/-- The result of `Image::loadPIC(std::istream&)`. -/
def loadPIC (fc : FloatCodec) (rc : RgbeCodec) (file : PicInput) : Result Image :=
  (loadPICTrace fc rc file).1

/-- One scanline of `storePIC`: for every `x`, the RGBE encoding of channels 0, 1 and 2
of pixel `(x, y)`. -/
def storePICScanline (fc : FloatCodec) (rc : RgbeCodec) (img : Image) (l : Layer)
    (y : Nat) : List Rgbe :=
  (List.range img.width.toNat).map fun (x : Nat) =>
    rc.rgb_to_rgbe (img.valueIn fc l x y 0, img.valueIn fc l x y 1, img.valueIn fc l x y 2)

/-- The method `Image::storePIC(path, layer)` with the operations it performs on the
destination. Width and height are those of the data model (non-negative). The guard
returns `Result<bool>("Cannot store LDR image as HDR image.")`, see
`Result.ofLiteralBool`. -/
def Image.storePIC (fc : FloatCodec) (rc : RgbeCodec) (img : Image) (path : String)
    (layer : Nat) : Except String (Result Bool × List PicWrite) := do
  let l ← img.layerAt layer
  if l.format ≠ Format.Float then
    pure (Result.ofLiteralBool "Cannot store LDR image as HDR image.", [])
  else
    pure (Result.ok true,
      [PicWrite.openStream path,
       PicWrite.write_information_header PicFormat._32_bit_rle_rgbe 1,
       PicWrite.write_resolution_string PicResolution.neg_y_pos_x img.width.toNat
         img.height.toNat] ++
      (List.range img.height.toNat).map fun y =>
        PicWrite.write_scanline (storePICScanline fc rc img l y))

/-- The scanlines among a sequence of destination operations, in order. -/
def picScanlinesOf : List PicWrite → List (List Rgbe)
  | [] => []
  | PicWrite.write_scanline px :: rest => px :: picScanlinesOf rest
  | _ :: rest => picScanlinesOf rest

/-- The stream a reader is delivered after the given destination operations: header
fields and scanlines pass through the codec unchanged. -/
def picFileOf : List PicWrite → Option PicInput
  | PicWrite.openStream _ :: PicWrite.write_information_header f e ::
      PicWrite.write_resolution_string rt w h :: rest =>
    some { format := f, exposure := e, resolutionType := rt, width := w, height := h,
           scanlines := picScanlinesOf rest }
  | _ => none

/-! ## OpenEXR store adapter -/

/-- One pixel of `Imf::Rgba`: four half-precision samples. -/
structure Rgba where
  r : ℚ
  g : ℚ
  b : ℚ
  a : ℚ

/-- The operations `storeEXR` performs on its destination, in order: the construction of
`Imf::RgbaOutputFile`, which creates the file, and one `writePixels` per scanline. -/
inductive ExrWrite where
  | createFile (path : String) (width height : Int)
  | writePixels (scanline : List Rgba)

/-- One pixel of a `storeEXR` scanline; `half` is the conversion `half(float)`. -/
def storeEXRPixel (fc : FloatCodec) (half : ℚ → ℚ) (img : Image) (layer : Nat)
    (x y : Nat) : Except String Rgba := do
  let r ← img.value fc x y 0 layer
  let r := half r
  let c1 ← img.channels layer
  let g ← if c1 > 1 then (do let v ← img.value fc x y 1 layer; pure (half v)) else pure r
  let c2 ← img.channels layer
  let b ← if c2 > 2 then (do let v ← img.value fc x y 2 layer; pure (half v)) else pure r
  let c3 ← img.channels layer
  let a ← if c3 > 3 then (do let v ← img.value fc x y 3 layer; pure (half v))
    else pure (half 1)
  pure { r := r, g := g, b := b, a := a }

/-- The inner loop of `storeEXR` over the columns of one scanline. -/
def storeEXRScanline (fc : FloatCodec) (half : ℚ → ℚ) (img : Image) (layer : Nat)
    (y : Nat) : List Nat → Except String (List Rgba)
  | [] => Except.ok []
  | x :: xs =>
    match storeEXRPixel fc half img layer x y with
    | Except.error e => Except.error e
    | Except.ok p =>
      match storeEXRScanline fc half img layer y xs with
      | Except.error e => Except.error e
      | Except.ok ps => Except.ok (p :: ps)

/-- The scanline loop of `storeEXR`: the scanlines written before the loop ends or an
exception leaves it. -/
def storeEXRRows (fc : FloatCodec) (half : ℚ → ℚ) (img : Image) (layer : Nat) :
    List Nat → Except String Unit × List ExrWrite
  | [] => (Except.ok (), [])
  | y :: ys =>
    match storeEXRScanline fc half img layer y (List.range img.width.toNat) with
    | Except.error e => (Except.error e, [])
    | Except.ok scanline =>
      let r := storeEXRRows fc half img layer ys
      (r.1, ExrWrite.writePixels scanline :: r.2)

/-- The method `Image::storeEXR(path, layer)` with the operations it performs on the
destination. Width and height are those of the data model (non-negative). -/
def Image.storeEXR (fc : FloatCodec) (half : ℚ → ℚ) (img : Image) (path : String)
    (layer : Nat) : Result Bool × List ExrWrite :=
  let r := storeEXRRows fc half img layer (List.range img.height.toNat)
  (match r.1 with
    | Except.ok _ => Result.ok true
    | Except.error e => Result.err ("OpenEXR export failed: " ++ e),
   ExrWrite.createFile path img.width img.height :: r.2)

/-! ## OpenEXR load adapter: layer-and-channel reconstruction -/

/-- The call `std::string::find_last_of(c)`: the last position holding `c`, if any. -/
def find_last_of : List Char → Char → Option Nat
  | [], _ => none
  | a :: as, c =>
    match find_last_of as c with
    | some pos => some (pos + 1)
    | none => if a = c then some 0 else none

/-- The split of a channel name in `loadEXRFile`: `(layerName, channelName)`. -/
def splitName (name : String) : String × String :=
  match find_last_of name.toList '.' with
  | some pos => (String.mk (name.toList.take (pos + 1)), String.mk (name.toList.drop (pos + 1)))
  | none => ("", name)

/-- Lexicographic comparison of character sequences, the order of `std::string` keys. -/
def charsLt : List Char → List Char → Bool
  | [], [] => false
  | [], _ :: _ => true
  | _ :: _, [] => false
  | a :: as, b :: bs =>
    if a.toNat < b.toNat then true else if a.toNat = b.toNat then charsLt as bs else false

/-- The comparison `std::less<std::string>` that orders the keys of `layers`. -/
def strLt (a b : String) : Bool := charsLt a.toList b.toList

/-- The container `std::map<std::string, std::vector<std::string>>`: its entries in
iteration order, which is ascending key order. -/
abbrev LayerMap := List (String × List String)

/-- The call `layers.find(layerName)`. -/
def mapFind (m : LayerMap) (layerName : String) : Option (List String) :=
  match m with
  | [] => none
  | (k, v) :: rest => if k = layerName then some v else mapFind rest layerName

/-- The call `layerMapIt->second.push_back(channelName)` on the entry of `layerName`. -/
def mapPushBack (m : LayerMap) (layerName channelName : String) : LayerMap :=
  m.map fun entry =>
    if entry.1 = layerName then (entry.1, entry.2 ++ [channelName]) else entry

/-- The call `layers.emplace(layerName, v)` for a key that is not in the map: the entry
goes to its place in key order. -/
def mapEmplace (m : LayerMap) (layerName : String) (v : List String) : LayerMap :=
  match m with
  | [] => [(layerName, v)]
  | (k, w) :: rest =>
    if strLt layerName k then (layerName, v) :: (k, w) :: rest
    else (k, w) :: mapEmplace rest layerName v

/-- One iteration of the grouping loop of `loadEXRFile`. -/
def groupStep (layers : LayerMap) (name : String) : LayerMap :=
  let layerName := (splitName name).1
  let channelName := (splitName name).2
  match mapFind layers layerName with
  | some _ => mapPushBack layers layerName channelName
  | none => mapEmplace layers layerName [channelName]

/-- The grouping loop of `loadEXRFile` over the channel names of the header. -/
def groupChannels (names : List String) : LayerMap :=
  names.foldl groupStep []

/-- The table `channelOrder`. -/
def channelOrder : List String := ["U", "V", "X", "Y", "Z", "W", "C", "R", "G", "B", "A"]

/-- One iteration of the loop over `channelOrder`: the state is `(channels,
sortedChannels)`. -/
def sortStep (st : List String × List String) (order : String) :
    List String × List String :=
  if order ∈ st.1 then (st.1.erase order, st.2 ++ [order]) else st

/-- The body of the `std::for_each` lambda of `loadEXRFile`: the new channel vector of
one layer. -/
def sortChannels (channels : List String) : List String :=
  let st := channelOrder.foldl sortStep (channels, [])
  st.2 ++ st.1

/-- The layers of `loadEXRFile` after grouping and ordering: each entry is the layer-name
key and the ordered channel vector, in the order the emission loop visits them. -/
def reconstructLayers (names : List String) : LayerMap :=
  (groupChannels names).map fun entry => (entry.1, sortChannels entry.2)

/-- The call `std::accumulate(cbegin, cend, std::string())`. -/
def accumulate (l : List String) : String := l.foldl (· ++ ·) ""

/-- The vector `layerData` of `loadEXRFile` before the pixels are read: one layer per
map entry, named `layerName + channelNames`, with a zero-filled float buffer. -/
def layerData (w h : Int) (names : List String) : List Layer :=
  (reconstructLayers names).map fun entry =>
    { name := entry.1 ++ accumulate entry.2
      channels := entry.2
      format := Format.Float
      data := List.replicate (w * h * (entry.2.length : Int) * 4).toNat 0 }

/-- The names `loadEXRFile` registers with the frame buffer, `layer.first +
layer.second[channel]`, in registration order. -/
def registeredNames (names : List String) : List String :=
  ((reconstructLayers names).map fun entry => entry.2.map fun c => entry.1 ++ c).flatten

/-- The image `loadEXRFile` returns when the reader succeeds: `layerData` moved into
`Image(w, h, std::move(layerData))`, where `fill` is the content the pixel read has left
in the buffer of each layer. -/
def loadEXRImage (w h : Int) (names : List String) (fill : Layer → List Nat) : Image :=
  { width := w
    height := h
    layers := (layerData w h names).map fun l => { l with data := fill l } }

/-- The function `Image::makeEmpty()`. -/
def Image.makeEmpty : Image :=
  Image.mk1 0 0 1 Format.Byte (List.replicate 1 0)

/-- What `QImage` holds after a successful `load`, `convertToFormat` and `mirrored`:
the alpha flag, the dimensions and the bytes behind `bits()`. -/
structure LdrSource where
  hasAlphaChannel : Bool
  width : Nat
  height : Nat
  bits : List Nat

/-- The call `std::copy(first, first + n, dst.begin())`: the first `n` bytes of the
source replace the first bytes of the destination. -/
def copyBytes (src : List Nat) (n : Nat) (dst : List Nat) : List Nat :=
  src.take n ++ dst.drop (src.take n).length

/-- The function `Image::loadImage(path)`; the argument is the outcome of `img.load`,
`none` when it fails. -/
def loadImage (src : Option LdrSource) : Result Image :=
  match src with
  | some img =>
    let w : Int := img.width
    let h : Int := img.height
    let c : Int := if img.hasAlphaChannel then 4 else 3
    let data := List.replicate (w * h * c).toNat 0
    let data := copyBytes img.bits (w * h * c).toNat data
    Result.ok (Image.mk1 w h c Format.Byte data)
  | none => Result.err "Image loader failed."

/-! ## Downscale operator: the coordinates it reads -/

/-- The coordinates `(x, y)` that the loops of `scaleByHalf` pass to `value`, in call
order. -/
def Image.scaleCoords (img : Image) (l : Layer) (newWidth newHeight : Int) :
    List (Int × Int) :=
  (List.range newWidth.toNat).flatMap fun (x : Nat) =>
    (List.range newHeight.toNat).flatMap fun (y : Nat) =>
      (List.range l.channels.length).flatMap fun (_ : Nat) =>
        [0, 1].flatMap fun (xo : Int) =>
          [0, 1].map fun (yo : Int) =>
            (min ((x : Int) * 2 + xo) (img.width - 1),
             max (img.height - (y : Int) * 2 - yo - 1) 0)

/-- The coordinates `scaleByHalf` passes to `value` during one call. -/
def Image.scaleByHalfReads (img : Image) : List (Int × Int) :=
  if img.width ≤ 1 ∧ img.height ≤ 1 then []
  else
    match img.layerAt 0 with
    | Except.ok l =>
      if l.format = Format.Float then
        img.scaleCoords l (max (img.width.tdiv 2) 1) (max (img.height.tdiv 2) 1)
      else []
    | Except.error _ => []

/-- A concrete float representation for evaluation: sign, numerator, denominator, and
one unused cell. -/
def ratCodec : FloatCodec where
  toBytes q := [if q.num < 0 then 1 else 0, q.num.natAbs, q.den, 0]
  ofBytes bs :=
    match bs with
    | [s, n, d, _] => (if s = 1 then -(n : ℚ) else (n : ℚ)) / (d : ℚ)
    | _ => 0
  length_toBytes _ := rfl
  ofBytes_toBytes q := by
    show (if (if q.num < 0 then 1 else 0) = 1 then -((q.num.natAbs : ℕ) : ℚ)
      else ((q.num.natAbs : ℕ) : ℚ)) / (q.den : ℚ) = q
    have hq := Rat.num_div_den q
    by_cases h : q.num < 0
    · have : ((q.num.natAbs : ℕ) : ℚ) = -(q.num : ℚ) := by
        have h1 : ((q.num.natAbs : ℕ) : ℤ) = -q.num := by omega
        have h2 : (((q.num.natAbs : ℕ) : ℤ) : ℚ) = ((-q.num : ℤ) : ℚ) := by rw [h1]
        rw [Int.cast_natCast, Int.cast_neg] at h2
        exact h2
      simp only [h, if_true, this, neg_neg]
      exact hq
    · have : ((q.num.natAbs : ℕ) : ℚ) = (q.num : ℚ) := by
        have h1 : ((q.num.natAbs : ℕ) : ℤ) = q.num := by omega
        have h2 : (((q.num.natAbs : ℕ) : ℤ) : ℚ) = ((q.num : ℤ) : ℚ) := by rw [h1]
        rw [Int.cast_natCast] at h2
        exact h2
      simp only [h, if_false, this]
      simp only [Nat.zero_ne_one, if_false]
      exact hq

/-- The data-model invariant on buffers: every layer's buffer length equals
`width * height * channelCount * pixelSize`. -/
def Image.BufferInvariant (img : Image) : Prop :=
  ∀ l ∈ img.layers,
    (l.data.length : Int) = img.width * img.height * (l.channels.length : Int) * l.pixelSize

/-! ## Definitions used to state and prove the properties -/

/-- The data-model invariant on channel lists: every layer has at least one channel and
its channel names are pairwise distinct. -/
def Image.ChannelInvariant (img : Image) : Prop :=
  ∀ l ∈ img.layers, l.channels ≠ [] ∧ l.channels.Nodup

/-- A 0x2 image with one Float channel and the empty buffer its dimensions call for. -/
def image0x2 : Image :=
  Image.mk1 0 2 1 Format.Float []

/-- A 2x1 image with one Float layer of six channels; every sample is 0. -/
def imageSix2x1 : Image :=
  { width := 2
    height := 1
    layers := [{ name := "UVXYZW", channels := ["U", "V", "X", "Y", "Z", "W"],
                 format := Format.Float, data := List.replicate 48 0 }] }

/-- A sequence of float writes, each given by its float index and its value. -/
def applyWrites (fc : FloatCodec) (data : List Nat) (ws : List (Nat × ℚ)) : List Nat :=
  ws.foldl (fun d w => writeFloat fc d (w.1 * 4) w.2) data

/-- The writes of the three nested loops of `scaleByHalf`, in execution order. -/
def scaleWrites (fc : FloatCodec) (img : Image) (l : Layer) (newWidth newHeight : Int) :
    List (Nat × ℚ) :=
  (List.range newWidth.toNat).flatMap fun x =>
    (List.range newHeight.toNat).flatMap fun y =>
      (List.range l.channels.length).map fun c =>
        (Image.outputOffset l newWidth x y c, img.scaleAvg fc l x y c)

/-- A 4x4 image with one Float channel whose sample at visual `(x, y)` is `x + 10 * y`
(buffer rows bottom to top, each sample in the representation of `ratCodec`). -/
def image4x4 : Image :=
  Image.mk1 4 4 1 Format.Float
    [0, 30, 1, 0, 0, 31, 1, 0, 0, 32, 1, 0, 0, 33, 1, 0,
     0, 20, 1, 0, 0, 21, 1, 0, 0, 22, 1, 0, 0, 23, 1, 0,
     0, 10, 1, 0, 0, 11, 1, 0, 0, 12, 1, 0, 0, 13, 1, 0,
     0, 0, 1, 0, 0, 1, 1, 0, 0, 2, 1, 0, 0, 3, 1, 0]

/-- A 1x3 image with one Float channel whose samples are, from the top visual row down,
1, 2 and 4. -/
def image1x3 : Image :=
  Image.mk1 1 3 1 Format.Float [0, 4, 1, 0, 0, 2, 1, 0, 0, 1, 1, 0]

/-- A 2x2 image with one Byte layer of three channels. -/
def imageByte2x2 : Image :=
  Image.mk1 2 2 3 Format.Byte [1, 2, 3, 4, 5, 6, 7, 8, 9, 10, 11, 255]

/-- The shared-exponent conversions taken as constants, for evaluation. -/
def trivialRgbe : RgbeCodec where
  rgbe_to_rgb p := ((p.r : ℚ), (p.g : ℚ), (p.b : ℚ))
  rgb_to_rgbe _ := ⟨0, 0, 0, 0⟩

/-- Channel `c` of an RGB triple. -/
def chan (t : ℚ × ℚ × ℚ) (c : Nat) : ℚ :=
  if c = 0 then t.1 else if c = 1 then t.2.1 else t.2.2

/-- The writes of the inner loop of `loadPIC` over one scanline, from column `x` on. -/
def picPixelWrites (rc : RgbeCodec) (w h y : Nat) : Nat → List Rgbe → List (Nat × ℚ)
  | _, [] => []
  | x, p :: ps =>
    ((h - y - 1) * 3 * w + x * 3, (rc.rgbe_to_rgb p).1) ::
    ((h - y - 1) * 3 * w + x * 3 + 1, (rc.rgbe_to_rgb p).2.1) ::
    ((h - y - 1) * 3 * w + x * 3 + 2, (rc.rgbe_to_rgb p).2.2) ::
    picPixelWrites rc w h y (x + 1) ps

/-- The scanline a stream holds at position `y` (empty when there is none). -/
def picRow (file : PicInput) (y : Nat) : List Rgbe := (file.scanlines[y]?).getD []

/-- A 2x2 Radiance-style input with distinct rows: the top row is delivered first. -/
def pic2x2 : PicInput :=
  { format := PicFormat._32_bit_rle_rgbe
    exposure := 1
    resolutionType := PicResolution.neg_y_pos_x
    width := 2
    height := 2
    scanlines := [[⟨1, 1, 1, 0⟩, ⟨2, 2, 2, 0⟩], [⟨3, 3, 3, 0⟩, ⟨4, 4, 4, 0⟩]] }

/-- A 1x2 image with one Float layer of three channels: the top pixel is (1, 2, 3), the
bottom pixel (4, 5, 6). -/
def imageFloat1x2 : Image :=
  { width := 1
    height := 2
    layers := [{ name := "default", channels := ["R", "G", "B"], format := Format.Float,
                 data := [0, 4, 1, 0, 0, 5, 1, 0, 0, 6, 1, 0,
                          0, 1, 1, 0, 0, 2, 1, 0, 0, 3, 1, 0] }] }

/-- The writes of one scanline read: consecutive floats from float index `i` on. -/
def floatWrites : Nat → List ℚ → List (Nat × ℚ)
  | _, [] => []
  | i, v :: vs => (i, v) :: floatWrites (i + 1) vs

/-- The scanline a stream holds at position `y` (empty when there is none). -/
def pfmRow (file : PfmInput) (y : Nat) : List ℚ := (file.scanlines[y]?).getD []

/-- The channel count `loadPFM` derives from the header. -/
def pfmChannels (file : PfmInput) : Nat :=
  if file.format = PfmFormat.color_format then 3 else 1

/-- A 2x2 image with one Float layer of a single channel; from the top row down its
samples are 1, 2 and 3, 4. -/
def imageGray2x2 : Image :=
  Image.mk1 2 2 1 Format.Float
    [0, 3, 1, 0, 0, 4, 1, 0,
     0, 1, 1, 0, 0, 2, 1, 0]

/-- The entries of a map are in strictly ascending key order. -/
def KeysSorted (m : LayerMap) : Prop :=
  List.Pairwise (fun a b : String × List String => strLt a.1 b.1 = true) m

/-- The bare channel names of the names whose layer-name part is `k`, in discovery
order. -/
def channelsOf (k : String) (names : List String) : List String :=
  (names.filter fun n => (splitName n).1 = k).map fun n => (splitName n).2

/-- A 2x2 Radiance-style input that declares the XYZE variant. -/
def picXyze : PicInput :=
  { pic2x2 with format := PicFormat._32_bit_rle_xyze }

/-! ## Basic facts -/

theorem length_resize {α : Type} (l : List α) (n : Nat) (d : α) :
    (resize l n d).length = n := by
  simp only [resize, List.length_append, List.length_take, List.length_replicate]
  omega

theorem layerAt_eq_ok {img : Image} {layer : Nat} {l : Layer} :
    img.layerAt layer = Except.ok l ↔ img.layers[layer]? = some l := by
  unfold Image.layerAt
  cases h : img.layers[layer]? <;> simp

theorem format_eq_ok {img : Image} {layer : Nat} {f : Format} :
    img.format layer = Except.ok f ↔ ∃ l, img.layerAt layer = Except.ok l ∧ l.format = f := by
  unfold Image.format
  cases h : img.layerAt layer with
  | error e => simp [bind, Except.bind]
  | ok l => simp [bind, Except.bind, pure, Except.pure]

theorem layerAt_mk1 (w h c : Int) (f : Format) (data : List Nat) :
    (Image.mk1 w h c f data).layerAt 0 = Except.ok
      { name := "default", channels := resize ["R", "G", "B", "A"] c.toNat "",
        format := f, data := data } := rfl

theorem value_mk1 (fc : FloatCodec) (w h c : Int) (f : Format) (data : List Nat)
    (x y ch : Int) :
    (Image.mk1 w h c f data).value fc x y ch 0 = Except.ok
      (if f = Format.Float then
        readFloat fc data ((((h - y - 1) * w + x) * ((c.toNat : Nat) : Int) + ch) * 4)
      else readByte data (((h - y - 1) * w + x) * ((c.toNat : Nat) : Int) + ch)) := by
  have h1 : (Image.mk1 w h c f data).width = w := rfl
  have h2 : (Image.mk1 w h c f data).height = h := rfl
  simp only [Image.value, layerAt_mk1, bind, Except.bind, pure, Except.pure, Image.valueIn,
    Image.sampleIndex, h1, h2, length_resize]

/-! ## Downscale operator: result shape and errors -/

/-- The success path of `scaleByHalf` and the shape of the image it returns. -/
theorem scaleByHalf_float (fc : FloatCodec) (img : Image)
    (hfmt : img.format 0 = Except.ok Format.Float)
    (hsize : ¬ (img.width ≤ 1 ∧ img.height ≤ 1)) :
    ∃ r : Image, img.scaleByHalf fc = Except.ok (Result.ok r) ∧
      (Result.ok r).toBool = true ∧
      r.width = max (img.width.tdiv 2) 1 ∧
      r.height = max (img.height.tdiv 2) 1 ∧
      r.layerCount = 1 ∧
      r.channels 0 = img.channels 0 ∧
      r.format 0 = Except.ok Format.Float := by
  obtain ⟨l, hl, hf⟩ := format_eq_ok.mp hfmt
  refine ⟨Image.mk1 (max (img.width.tdiv 2) 1) (max (img.height.tdiv 2) 1)
    (l.channels.length : Int) l.format
    (Image.scaleLoops fc img l (max (img.width.tdiv 2) 1) (max (img.height.tdiv 2) 1)
      (List.replicate ((max (img.width.tdiv 2) 1) * (max (img.height.tdiv 2) 1) *
        (l.channels.length : Int) * l.pixelSize).toNat 0)), ?_, rfl, rfl, rfl, rfl, ?_, ?_⟩
  · simp only [Image.scaleByHalf, hsize, if_false, hl, bind, Except.bind, hf, if_true]
    rfl
  · simp only [Image.channels, layerAt_mk1, hl, bind, Except.bind, pure, Except.pure,
      length_resize, Int.toNat_ofNat]
  · simp only [Image.format, layerAt_mk1, bind, Except.bind, pure, Except.pure, hf]

/-- C3: for an image with at least one layer, `scaleByHalf` returns, and it returns Err
exactly when both dimensions are at most 1 or the first layer is not Float; the error
for a too-small image and the error for a non-Float layer are different messages; every
1x1 image yields Err. -/
theorem scaleByHalf_err_iff (fc : FloatCodec) (img : Image) (hne : img.layers ≠ []) :
    (∃ r, img.scaleByHalf fc = Except.ok r) ∧
    ((∃ r, img.scaleByHalf fc = Except.ok r ∧ r.toBool = false) ↔
      ((img.width ≤ 1 ∧ img.height ≤ 1) ∨ img.format 0 ≠ Except.ok Format.Float)) ∧
    ((img.width ≤ 1 ∧ img.height ≤ 1) → img.scaleByHalf fc =
      Except.ok (Result.err "Image is too small for further downscaling by half.")) ∧
    (¬ (img.width ≤ 1 ∧ img.height ≤ 1) → img.format 0 ≠ Except.ok Format.Float →
      img.scaleByHalf fc =
        Except.ok (Result.err "Scaling non-floating-point images is not supported.")) ∧
    ("Image is too small for further downscaling by half." ≠
      "Scaling non-floating-point images is not supported.") ∧
    (img.width = 1 → img.height = 1 →
      ∃ r, img.scaleByHalf fc = Except.ok r ∧ r.toBool = false) := by
  obtain ⟨l, rest, hlayers⟩ : ∃ l rest, img.layers = l :: rest := by
    cases h : img.layers with
    | nil => exact absurd h hne
    | cons l rest => exact ⟨l, rest, rfl⟩
  have hl : img.layerAt 0 = Except.ok l := by
    rw [layerAt_eq_ok, hlayers]; simp
  have hfm : img.format 0 = Except.ok l.format := by
    simp only [Image.format, hl, bind, Except.bind, pure, Except.pure]
  have hsmall : (img.width ≤ 1 ∧ img.height ≤ 1) → img.scaleByHalf fc =
      Except.ok (Result.err "Image is too small for further downscaling by half.") := by
    intro h
    simp only [Image.scaleByHalf, h, and_self, if_true, pure, Except.pure]
  have hbyte : ¬ (img.width ≤ 1 ∧ img.height ≤ 1) → img.format 0 ≠ Except.ok Format.Float →
      img.scaleByHalf fc =
        Except.ok (Result.err "Scaling non-floating-point images is not supported.") := by
    intro h hf
    have hf2 : ¬ l.format = Format.Float := by
      intro hc; apply hf; rw [hfm, hc]
    simp only [Image.scaleByHalf, h, if_false, hl, bind, Except.bind, hf2, pure, Except.pure]
  have hfloat : ¬ (img.width ≤ 1 ∧ img.height ≤ 1) → img.format 0 = Except.ok Format.Float →
      ∃ r, img.scaleByHalf fc = Except.ok (Result.ok r) := by
    intro h hf
    obtain ⟨r, hr, _⟩ := scaleByHalf_float fc img hf h
    exact ⟨r, hr⟩
  refine ⟨?_, ?_, hsmall, hbyte, by decide, ?_⟩
  · by_cases h : img.width ≤ 1 ∧ img.height ≤ 1
    · exact ⟨_, hsmall h⟩
    · by_cases hf : img.format 0 = Except.ok Format.Float
      · obtain ⟨r, hr⟩ := hfloat h hf
        exact ⟨_, hr⟩
      · exact ⟨_, hbyte h hf⟩
  · constructor
    · rintro ⟨r, hr, hb⟩
      by_contra hcon
      rw [not_or, not_not] at hcon
      obtain ⟨r2, hr2⟩ := hfloat hcon.1 hcon.2
      rw [hr2] at hr
      injection hr with hr
      rw [← hr] at hb
      simp [Result.toBool, Result.ok] at hb
    · rintro (h | hf)
      · exact ⟨_, hsmall h, rfl⟩
      · by_cases h : img.width ≤ 1 ∧ img.height ≤ 1
        · exact ⟨_, hsmall h, rfl⟩
        · exact ⟨_, hbyte h hf, rfl⟩
  · intro hw hh
    exact ⟨_, hsmall ⟨by omega, by omega⟩, rfl⟩

/-- Witness for C3: a 1x1 image with one Float channel. -/
theorem scaleByHalf_err_iff_witness :
    (Image.mk1 1 1 1 Format.Float [0, 0, 1, 0]).layers ≠ [] ∧
    (Image.mk1 1 1 1 Format.Float [0, 0, 1, 0]).scaleByHalf ratCodec =
      Except.ok (Result.err "Image is too small for further downscaling by half.") :=
  ⟨by decide,
   (scaleByHalf_err_iff ratCodec (Image.mk1 1 1 1 Format.Float [0, 0, 1, 0])
      (by decide)).2.2.1 ⟨by decide, by decide⟩⟩

/-! ## Buffer reads and writes -/

theorem length_writeFloat (fc : FloatCodec) (data : List Nat) (off : Nat) (v : ℚ)
    (h : off + 4 ≤ data.length) : (writeFloat fc data off v).length = data.length := by
  simp only [writeFloat, List.length_append, List.length_take, List.length_drop,
    fc.length_toBytes]
  omega

theorem getElem?_writeFloat (fc : FloatCodec) (data : List Nat) (off : Nat) (v : ℚ)
    (h : off + 4 ≤ data.length) (n : Nat) (hn : n < off ∨ off + 4 ≤ n) :
    (writeFloat fc data off v)[n]? = data[n]? := by
  have hlen : (List.take off data).length = off := by
    rw [List.length_take]; omega
  unfold writeFloat
  rcases hn with hn | hn
  · rw [List.append_assoc, List.getElem?_append_left (by omega)]
    rw [List.getElem?_take_of_lt hn]
  · rw [List.getElem?_append_right (by
      rw [List.length_append, hlen, fc.length_toBytes]; exact hn)]
    rw [List.length_append, hlen, fc.length_toBytes, List.getElem?_drop]
    congr 1
    omega

theorem take_drop_congr {l l' : List Nat} (m : Nat)
    (h : ∀ k, k < 4 → l[m + k]? = l'[m + k]?) :
    (l.drop m).take 4 = (l'.drop m).take 4 := by
  apply List.ext_getElem?
  intro k
  by_cases hk : k < 4
  · rw [List.getElem?_take_of_lt hk, List.getElem?_take_of_lt hk, List.getElem?_drop,
      List.getElem?_drop]
    exact h k hk
  · have hnone : ∀ t : List Nat, ((t.drop m).take 4)[k]? = none := fun t =>
      List.getElem?_eq_none (by rw [List.length_take]; omega)
    rw [hnone, hnone]

theorem readFloat_writeFloat_same (fc : FloatCodec) (data : List Nat) (i : Nat) (v : ℚ)
    (h : i * 4 + 4 ≤ data.length) :
    readFloat fc (writeFloat fc data (i * 4) v) (((i : Nat) : Int) * 4) = v := by
  have hlen : (List.take (i * 4) data).length = i * 4 := by
    rw [List.length_take]; omega
  have hpos : (0 : Int) ≤ ((i : Nat) : Int) * 4 := by positivity
  have hnat : (((i : Nat) : Int) * 4).toNat = i * 4 := by omega
  simp only [readFloat, hpos, if_true, hnat, writeFloat]
  rw [List.append_assoc, List.drop_left' hlen, List.take_left' (fc.length_toBytes v)]
  exact fc.ofBytes_toBytes v

theorem readFloat_writeFloat_other (fc : FloatCodec) (data : List Nat) (i j : Nat) (v : ℚ)
    (h : i * 4 + 4 ≤ data.length) (hij : i ≠ j) :
    readFloat fc (writeFloat fc data (i * 4) v) (((j : Nat) : Int) * 4) =
      readFloat fc data (((j : Nat) : Int) * 4) := by
  have hpos : (0 : Int) ≤ ((j : Nat) : Int) * 4 := by positivity
  have hnat : (((j : Nat) : Int) * 4).toNat = j * 4 := by omega
  simp only [readFloat, hpos, if_true, hnat]
  congr 1
  apply take_drop_congr
  intro k hk
  apply getElem?_writeFloat fc data (i * 4) v h
  omega

theorem applyWrites_append (fc : FloatCodec) (data : List Nat) (ws ws' : List (Nat × ℚ)) :
    applyWrites fc data (ws ++ ws') = applyWrites fc (applyWrites fc data ws) ws' := by
  simp only [applyWrites, List.foldl_append]

theorem length_applyWrites (fc : FloatCodec) (ws : List (Nat × ℚ)) (data : List Nat)
    (h : ∀ w ∈ ws, w.1 * 4 + 4 ≤ data.length) :
    (applyWrites fc data ws).length = data.length := by
  induction ws generalizing data with
  | nil => rfl
  | cons w ws ih =>
    have hw := h w (List.mem_cons_self _ _)
    have hl := length_writeFloat fc data (w.1 * 4) w.2 hw
    show (applyWrites fc (writeFloat fc data (w.1 * 4) w.2) ws).length = data.length
    rw [ih, hl]
    intro w' hw'
    rw [hl]
    exact h w' (List.mem_cons_of_mem _ hw')

/-- After a sequence of in-range writes, a float index that some write targets, and that
is only ever written with the value `q`, holds `q`. -/
theorem readFloat_applyWrites (fc : FloatCodec) (ws : List (Nat × ℚ)) (data : List Nat)
    (i : Nat) (q : ℚ)
    (hin : ∀ w ∈ ws, w.1 * 4 + 4 ≤ data.length)
    (hex : ∃ w ∈ ws, w.1 = i)
    (hval : ∀ w ∈ ws, w.1 = i → w.2 = q) :
    readFloat fc (applyWrites fc data ws) (((i : Nat) : Int) * 4) = q := by
  induction ws using List.reverseRecOn with
  | nil =>
    obtain ⟨w, hw, _⟩ := hex
    exact absurd hw (List.not_mem_nil _)
  | append_singleton ws w ih =>
    rw [applyWrites_append]
    have hin' : ∀ w' ∈ ws, w'.1 * 4 + 4 ≤ data.length :=
      fun w' hw' => hin w' (List.mem_append_left _ hw')
    have hlen := length_applyWrites fc ws data hin'
    have hw : w.1 * 4 + 4 ≤ (applyWrites fc data ws).length := by
      rw [hlen]; exact hin w (List.mem_append_right _ (List.mem_singleton_self _))
    show readFloat fc (writeFloat fc (applyWrites fc data ws) (w.1 * 4) w.2) _ = q
    by_cases hwi : w.1 = i
    · have hq := hval w (List.mem_append_right _ (List.mem_singleton_self _)) hwi
      rw [← hwi, ← hq]
      exact readFloat_writeFloat_same fc _ w.1 w.2 hw
    · rw [readFloat_writeFloat_other fc _ w.1 i w.2 hw hwi]
      apply ih hin'
      · obtain ⟨w', hw', hi⟩ := hex
        rcases List.mem_append.mp hw' with h1 | h1
        · exact ⟨w', h1, hi⟩
        · rw [List.mem_singleton] at h1
          rw [h1] at hi
          exact absurd hi hwi
      · exact fun w' hw' => hval w' (List.mem_append_left _ hw')

theorem foldl_applyWrites_flatMap {α : Type} (fc : FloatCodec) (g : α → List (Nat × ℚ))
    (xs : List α) (data : List Nat) :
    xs.foldl (fun d x => applyWrites fc d (g x)) data = applyWrites fc data (xs.flatMap g) := by
  induction xs generalizing data with
  | nil => rfl
  | cons x xs ih =>
    rw [List.foldl_cons, ih, List.flatMap_cons, applyWrites_append]

theorem foldl_writeFloat_map {α : Type} (fc : FloatCodec) (f : α → Nat) (v : α → ℚ)
    (xs : List α) (data : List Nat) :
    xs.foldl (fun d x => writeFloat fc d (f x * 4) (v x)) data =
      applyWrites fc data (xs.map fun x => (f x, v x)) := by
  simp only [applyWrites, List.foldl_map]

/-- Two positions `a * n + b` with `b < n` coincide only when both parts do. -/
theorem mul_add_inj {n a b a' b' : Nat} (hb : b < n) (hb' : b' < n)
    (h : a * n + b = a' * n + b') : a = a' ∧ b = b' := by
  have hn : 0 < n := by omega
  have h1 : (a * n + b) / n = a := by
    rw [Nat.add_comm, Nat.add_mul_div_right _ _ hn, Nat.div_eq_of_lt hb, Nat.zero_add]
  have h2 : (a' * n + b') / n = a' := by
    rw [Nat.add_comm, Nat.add_mul_div_right _ _ hn, Nat.div_eq_of_lt hb', Nat.zero_add]
  have ha : a = a' := by rw [← h1, ← h2, h]
  subst ha
  exact ⟨rfl, by omega⟩

theorem index_lt {a n b m : Nat} (ha : a < m) (hb : b < n) : a * n + b < m * n := by
  have h1 : (a + 1) * n ≤ m * n := Nat.mul_le_mul_right n ha
  have h2 : (a + 1) * n = a * n + n := by ring
  omega

/-! ## Downscale operator: sample values -/

theorem scaleLoops_eq_applyWrites (fc : FloatCodec) (img : Image) (l : Layer)
    (newWidth newHeight : Int) (data : List Nat) :
    Image.scaleLoops fc img l newWidth newHeight data =
      applyWrites fc data (scaleWrites fc img l newWidth newHeight) := by
  unfold Image.scaleLoops scaleWrites
  simp only [foldl_writeFloat_map, foldl_applyWrites_flatMap]

theorem mem_scaleWrites {fc : FloatCodec} {img : Image} {l : Layer} {nw nh : Int}
    {w : Nat × ℚ} :
    w ∈ scaleWrites fc img l nw nh ↔
      ∃ x, x < nw.toNat ∧ ∃ y, y < nh.toNat ∧ ∃ c, c < l.channels.length ∧
        w = (Image.outputOffset l nw x y c, img.scaleAvg fc l x y c) := by
  simp only [scaleWrites, List.mem_flatMap, List.mem_map, List.mem_range, eq_comm]

theorem outputOffset_eq (l : Layer) (nw : Int) (x y c : Nat) :
    Image.outputOffset l nw x y c = (y * nw.toNat + x) * l.channels.length + c := by
  unfold Image.outputOffset
  ring

/-- In the buffer the loops of `scaleByHalf` leave, the float at `outputOffset x y c` is
the average computed for `(x, y, c)`. -/
theorem readFloat_scaleLoops (fc : FloatCodec) (img : Image) (l : Layer) (nw nh : Int)
    (data : List Nat) (hlen : data.length = nh.toNat * nw.toNat * l.channels.length * 4)
    (x y c : Nat) (hx : x < nw.toNat) (hy : y < nh.toNat) (hc : c < l.channels.length) :
    readFloat fc (Image.scaleLoops fc img l nw nh data)
      (((Image.outputOffset l nw x y c : Nat) : Int) * 4) = img.scaleAvg fc l x y c := by
  rw [scaleLoops_eq_applyWrites]
  apply readFloat_applyWrites
  · intro w hw
    obtain ⟨x', hx', y', hy', c', hc', rfl⟩ := mem_scaleWrites.mp hw
    have h1 : (y' * nw.toNat + x') * l.channels.length + c' <
        nh.toNat * nw.toNat * l.channels.length := index_lt (index_lt hy' hx') hc'
    show Image.outputOffset l nw x' y' c' * 4 + 4 ≤ data.length
    rw [hlen, outputOffset_eq]
    omega
  · exact ⟨_, mem_scaleWrites.mpr ⟨x, hx, y, hy, c, hc, rfl⟩, rfl⟩
  · intro w hw hi
    obtain ⟨x', hx', y', hy', c', hc', rfl⟩ := mem_scaleWrites.mp hw
    have hi' : Image.outputOffset l nw x' y' c' = Image.outputOffset l nw x y c := hi
    rw [outputOffset_eq, outputOffset_eq] at hi'
    obtain ⟨h1, h2⟩ := mul_add_inj hc' hc hi'
    obtain ⟨h3, h4⟩ := mul_add_inj hx' hx h1
    show img.scaleAvg fc l x' y' c' = img.scaleAvg fc l x y c
    rw [h2, h3, h4]

/-- The value `scaleByHalf` leaves at the visual position `(x, y)` of its result is the
average the loops compute for the stored row `newHeight - 1 - y`. -/
theorem scaleByHalf_value_stored (fc : FloatCodec) (img : Image) (l : Layer)
    (hl : img.layerAt 0 = Except.ok l) (hf : l.format = Format.Float)
    (hsize : ¬ (img.width ≤ 1 ∧ img.height ≤ 1)) (x y c : Nat)
    (hx : (x : Int) < max (img.width.tdiv 2) 1) (hy : (y : Int) < max (img.height.tdiv 2) 1)
    (hc : c < l.channels.length) :
    ∃ r : Image, img.scaleByHalf fc = Except.ok (Result.ok r) ∧
      r.value fc x y c 0 = Except.ok
        (img.scaleAvg fc l x (((max (img.height.tdiv 2) 1).toNat - 1 - y : Nat) : Int) c) := by
  generalize hnw : max (img.width.tdiv 2) 1 = nw at hx
  generalize hnh : max (img.height.tdiv 2) 1 = nh at hy
  have hnw1 : 1 ≤ nw := by rw [← hnw]; exact le_max_right _ _
  have hnh1 : 1 ≤ nh := by rw [← hnh]; exact le_max_right _ _
  have hps : l.pixelSize = 4 := by simp [Layer.pixelSize, hf]
  refine ⟨Image.mk1 nw nh (l.channels.length : Int) l.format
    (Image.scaleLoops fc img l nw nh
      (List.replicate (nw * nh * (l.channels.length : Int) * l.pixelSize).toNat 0)), ?_, ?_⟩
  · simp only [Image.scaleByHalf, hsize, if_false, hl, bind, Except.bind, hf, if_true, hnw,
      hnh]
    rfl
  · have hlen : (List.replicate (nw * nh * (l.channels.length : Int) * l.pixelSize).toNat
        0).length = nh.toNat * nw.toNat * l.channels.length * 4 := by
      rw [List.length_replicate, hps]
      have e1 : nw = ((nw.toNat : Nat) : Int) := by omega
      have e2 : nh = ((nh.toNat : Nat) : Int) := by omega
      have e3 : nw * nh * (l.channels.length : Int) * 4 =
          ((nh.toNat * nw.toNat * l.channels.length * 4 : Nat) : Int) := by
        push_cast
        rw [← e1, ← e2]
        ring
      rw [e3, Int.toNat_ofNat]
    have hread := readFloat_scaleLoops fc img l nw nh _ hlen x (nh.toNat - 1 - y) c
      (by omega) (by omega) hc
    have hidx : (((nh - (y : Int) - 1) * nw + (x : Int)) * (l.channels.length : Int) +
        (c : Int)) = ((Image.outputOffset l nw x (nh.toNat - 1 - y) c : Nat) : Int) := by
      rw [outputOffset_eq]
      push_cast
      have e1 : ((nw.toNat : Nat) : Int) = nw := by omega
      have e2 : (((nh.toNat - 1 - y : Nat)) : Int) = nh - (y : Int) - 1 := by omega
      rw [e1, e2]
    rw [value_mk1, if_pos hf, Int.toNat_ofNat, hidx, hread]

theorem value_eq_valueIn (fc : FloatCodec) (img : Image) (l : Layer) (layer : Nat)
    (hl : img.layerAt layer = Except.ok l) (x y c : Int) :
    img.value fc x y c layer = Except.ok (img.valueIn fc l x y c) := by
  simp only [Image.value, hl, bind, Except.bind, pure, Except.pure]

/-- C1 (amended): for an image with positive dimensions, not both 1, and a Float first
layer, the value of the `scaleByHalf` result at output pixel `(x, y)` and channel `c` is
one quarter of the sum of the source values at columns `min(2x, width-1)` and
`min(2x+1, width-1)` and rows `min(2y + height mod 2, height-1)` and
`min(2y + 1 + height mod 2, height-1)`, in the visual coordinates `value` takes. For an
even height and for height 1 these are the rows `2y` and `2y+1` clamped; for an odd
height of 3 or more they are the rows `2y+1` and `2y+2`. -/
theorem scaleByHalf_box_average (fc : FloatCodec) (img : Image)
    (_hw : 1 ≤ img.width) (hh : 1 ≤ img.height)
    (hsize : ¬ (img.width ≤ 1 ∧ img.height ≤ 1))
    (hfmt : img.format 0 = Except.ok Format.Float)
    (x y c : Nat)
    (hx : (x : Int) < max (img.width.tdiv 2) 1) (hy : (y : Int) < max (img.height.tdiv 2) 1)
    (hc : ∃ n, img.channels 0 = Except.ok n ∧ (c : Int) < n) :
    ∃ (r : Image) (v00 v10 v01 v11 : ℚ),
      img.scaleByHalf fc = Except.ok (Result.ok r) ∧
      img.value fc (min (2 * (x : Int)) (img.width - 1))
        (min (2 * (y : Int) + img.height % 2) (img.height - 1)) c 0 = Except.ok v00 ∧
      img.value fc (min (2 * (x : Int) + 1) (img.width - 1))
        (min (2 * (y : Int) + img.height % 2) (img.height - 1)) c 0 = Except.ok v10 ∧
      img.value fc (min (2 * (x : Int)) (img.width - 1))
        (min (2 * (y : Int) + 1 + img.height % 2) (img.height - 1)) c 0 = Except.ok v01 ∧
      img.value fc (min (2 * (x : Int) + 1) (img.width - 1))
        (min (2 * (y : Int) + 1 + img.height % 2) (img.height - 1)) c 0 = Except.ok v11 ∧
      r.value fc x y c 0 = Except.ok ((v00 + v10 + v01 + v11) / 4) := by
  obtain ⟨l, hl, hf⟩ := format_eq_ok.mp hfmt
  obtain ⟨n, hn, hcn⟩ := hc
  have hc' : c < l.channels.length := by
    simp only [Image.channels, hl, bind, Except.bind, pure, Except.pure] at hn
    injection hn with hn
    omega
  obtain ⟨r, hr, hv⟩ := scaleByHalf_value_stored fc img l hl hf hsize x y c hx hy hc'
  refine ⟨r, _, _, _, _, hr, value_eq_valueIn fc img l 0 hl _ _ _,
    value_eq_valueIn fc img l 0 hl _ _ _, value_eq_valueIn fc img l 0 hl _ _ _,
    value_eq_valueIn fc img l 0 hl _ _ _, ?_⟩
  rw [hv]
  rw [Int.tdiv_eq_ediv (by omega) (by norm_num)] at hy ⊢
  have ex0 : (x : Int) * 2 + 0 = 2 * (x : Int) := by ring
  have ex1 : (x : Int) * 2 + 1 = 2 * (x : Int) + 1 := by ring
  have ey0 : max (img.height -
      (((max (img.height / 2) 1).toNat - 1 - y : Nat) : Int) * 2 - 0 - 1) 0 =
      min (2 * (y : Int) + 1 + img.height % 2) (img.height - 1) := by omega
  have ey1 : max (img.height -
      (((max (img.height / 2) 1).toNat - 1 - y : Nat) : Int) * 2 - 1 - 1) 0 =
      min (2 * (y : Int) + img.height % 2) (img.height - 1) := by omega
  simp only [Image.scaleAvg, List.foldl, ex0, ex1, ey0, ey1]
  congr 1
  ring

/-- Witness for C1: on the 4x4 image `v[x][y] = x + 10 * y` the theorem applies at output
pixel `(0, 0)`, and the four source samples it names are 0, 1, 10 and 11, whose quarter
sum is 5.5. -/
theorem scaleByHalf_box_average_witness :
    (∃ (r : Image) (v00 v10 v01 v11 : ℚ),
      image4x4.scaleByHalf ratCodec = Except.ok (Result.ok r) ∧
      image4x4.value ratCodec 0 0 0 0 = Except.ok v00 ∧
      image4x4.value ratCodec 1 0 0 0 = Except.ok v10 ∧
      image4x4.value ratCodec 0 1 0 0 = Except.ok v01 ∧
      image4x4.value ratCodec 1 1 0 0 = Except.ok v11 ∧
      r.value ratCodec 0 0 0 0 = Except.ok ((v00 + v10 + v01 + v11) / 4)) ∧
    image4x4.value ratCodec 0 0 0 0 = Except.ok 0 ∧
    image4x4.value ratCodec 1 0 0 0 = Except.ok 1 ∧
    image4x4.value ratCodec 0 1 0 0 = Except.ok 10 ∧
    image4x4.value ratCodec 1 1 0 0 = Except.ok 11 ∧
    ((0 : ℚ) + 1 + 10 + 11) / 4 = 11 / 2 := by
  refine ⟨scaleByHalf_box_average ratCodec image4x4 (by decide) (by decide) (by decide) rfl
    0 0 0 (by decide) (by decide) ⟨1, rfl, by decide⟩, ?_, ?_, ?_, ?_, by norm_num⟩ <;>
  · rw [image4x4, value_mk1]
    simp [readFloat, ratCodec]

/-- C1 (counterexample): on the 1x3 single-channel image with samples 1, 2, 4 from
the top row down, the only output pixel of `scaleByHalf` is 3, the average of rows 1 and 2,
while the quarter sum over rows `min(0, 2)` and `min(1, 2)` that the claim names is
(1 + 1 + 2 + 2) / 4 = 3/2. -/
theorem scaleByHalf_odd_height_counterexample :
    ∃ r : Image, image1x3.scaleByHalf ratCodec = Except.ok (Result.ok r) ∧
      r.value ratCodec 0 0 0 0 = Except.ok 3 ∧
      image1x3.value ratCodec 0 0 0 0 = Except.ok 1 ∧
      image1x3.value ratCodec 0 1 0 0 = Except.ok 2 ∧
      (3 : ℚ) ≠ (1 + 1 + 2 + 2) / 4 := by
  have hl : image1x3.layerAt 0 = Except.ok
      { name := "default", channels := resize ["R", "G", "B", "A"] 1 "",
        format := Format.Float, data := [0, 4, 1, 0, 0, 2, 1, 0, 0, 1, 1, 0] } := rfl
  obtain ⟨r, hr, hv⟩ := scaleByHalf_value_stored ratCodec image1x3 _ hl rfl (by decide)
    0 0 0 (by decide) (by decide) (by decide)
  have hrow : (((max (image1x3.height.tdiv 2) 1).toNat - 1 - 0 : Nat) : Int) = 0 := by decide
  rw [hrow] at hv
  simp only [Nat.cast_zero] at hv
  refine ⟨r, hr, ?_, ?_, ?_, by norm_num⟩
  · rw [hv]
    congr 1
    simp [Image.scaleAvg, Image.valueIn, Image.sampleIndex, image1x3, Image.mk1, resize,
      readFloat, ratCodec]
    norm_num
  · rw [image1x3, value_mk1]
    simp [readFloat, ratCodec]
  · rw [image1x3, value_mk1]
    simp [readFloat, ratCodec]

/-! ## Pixel accessor -/

/-- For a layer of format Byte, `storePFM` and `storePIC` return before any operation
on the destination, and what they return is `Result<bool>` constructed from the string
literal. -/
theorem store_byte_layer_guard (fc : FloatCodec) (rc : RgbeCodec) (img : Image)
    (path : String) (layer : Nat) (hfmt : img.format layer = Except.ok Format.Byte) :
    img.storePFM fc path layer =
      Except.ok (Result.ofLiteralBool "Cannot store LDR image as HDR image.", []) ∧
    img.storePIC fc rc path layer =
      Except.ok (Result.ofLiteralBool "Cannot store LDR image as HDR image.", []) := by
  obtain ⟨l, hl, hf⟩ := format_eq_ok.mp hfmt
  have hnf : l.format ≠ Format.Float := by rw [hf]; decide
  constructor
  · simp only [Image.storePFM, hl, bind, Except.bind, hnf, ne_eq, not_false_eq_true, if_true,
      pure, Except.pure]
  · simp only [Image.storePIC, hl, bind, Except.bind, hnf, ne_eq, not_false_eq_true, if_true,
      pure, Except.pure]

/-- C8 (the code at the failing input): on the 2x2 image whose only layer is Byte,
`storePFM` and `storePIC` perform no operation on the destination, but the `Result` they
return is in the success state: its success check is true, it holds the value `true`,
and its error message is empty, not 'Cannot store LDR image as HDR image.'. -/
theorem store_byte_layer_returns_true (fc : FloatCodec) (rc : RgbeCodec) (path : String) :
    imageByte2x2.format 0 = Except.ok Format.Byte ∧
    (∃ r : Result Bool, imageByte2x2.storePFM fc path 0 = Except.ok (r, []) ∧
      r.toBool = true ∧ r.value_ = some true ∧ r.error = "" ∧
      r.error ≠ "Cannot store LDR image as HDR image.") ∧
    (∃ r : Result Bool, imageByte2x2.storePIC fc rc path 0 = Except.ok (r, []) ∧
      r.toBool = true ∧ r.value_ = some true ∧ r.error = "" ∧
      r.error ≠ "Cannot store LDR image as HDR image.") := by
  have h := store_byte_layer_guard fc rc imageByte2x2 path 0 rfl
  exact ⟨rfl, ⟨_, h.1, rfl, rfl, rfl, by decide⟩, ⟨_, h.2, rfl, rfl, rfl, by decide⟩⟩

/-- C9 (the code at the failing input): `storeEXR` on the 2x2 image whose only layer is
Byte constructs the output file, writes both scanlines with the bytes widened, and
returns Ok(true). -/
theorem storeEXR_byte_layer_writes (fc : FloatCodec) (half : ℚ → ℚ) :
    imageByte2x2.format 0 = Except.ok Format.Byte ∧
    (imageByte2x2.storeEXR fc half "out.exr" 0).1 = Result.ok true ∧
    (imageByte2x2.storeEXR fc half "out.exr" 0).1.toBool = true ∧
    (imageByte2x2.storeEXR fc half "out.exr" 0).2 =
      [ExrWrite.createFile "out.exr" 2 2,
       ExrWrite.writePixels [⟨half 7, half 8, half 9, half 1⟩,
         ⟨half 10, half 11, half 255, half 1⟩],
       ExrWrite.writePixels [⟨half 1, half 2, half 3, half 1⟩,
         ⟨half 4, half 5, half 6, half 1⟩]] := by
  have hw : (Image.mk1 2 2 3 Format.Byte [1, 2, 3, 4, 5, 6, 7, 8, 9, 10, 11, 255]).width = 2 :=
    rfl
  have hh : (Image.mk1 2 2 3 Format.Byte [1, 2, 3, 4, 5, 6, 7, 8, 9, 10, 11, 255]).height = 2 :=
    rfl
  refine ⟨rfl, ?_, ?_, ?_⟩ <;>
  simp [Image.storeEXR, storeEXRRows, storeEXRScanline, storeEXRPixel, imageByte2x2,
    value_mk1, List.range, List.range.loop, Image.channels, layerAt_mk1, length_resize,
    readByte, bind, Except.bind, pure, Except.pure, Result.toBool, Result.ok, hw, hh]

/-! ## Radiance adapter: load -/

theorem loadPICPixels_eq_applyWrites (fc : FloatCodec) (rc : RgbeCodec) (w h y : Nat)
    (ps : List Rgbe) (x : Nat) (data : List Nat) :
    loadPICPixels fc rc w h y data x ps = applyWrites fc data (picPixelWrites rc w h y x ps) := by
  induction ps generalizing x data with
  | nil => rfl
  | cons p ps ih =>
    simp only [loadPICPixels, picPixelWrites, applyWrites, List.foldl_cons]
    rw [ih]
    rfl

theorem mem_picPixelWrites (rc : RgbeCodec) (w h y : Nat) (ps : List Rgbe) (x : Nat)
    (wr : Nat × ℚ) (hwr : wr ∈ picPixelWrites rc w h y x ps) :
    ∃ k p c, ps[k]? = some p ∧ c < 3 ∧
      wr = ((h - y - 1) * 3 * w + (x + k) * 3 + c, chan (rc.rgbe_to_rgb p) c) := by
  induction ps generalizing x with
  | nil => exact absurd hwr (List.not_mem_nil _)
  | cons p ps ih =>
    simp only [picPixelWrites, List.mem_cons] at hwr
    rcases hwr with h0 | h1 | h2 | hrest
    · exact ⟨0, p, 0, by simp, by decide, by rw [h0]; rfl⟩
    · exact ⟨0, p, 1, by simp, by decide, by rw [h1]; rfl⟩
    · exact ⟨0, p, 2, by simp, by decide, by rw [h2]; rfl⟩
    · obtain ⟨k, q, c, hk, hc, hw⟩ := ih (x + 1) hrest
      refine ⟨k + 1, q, c, by simpa using hk, hc, ?_⟩
      rw [hw]
      congr 1
      ring

theorem picPixelWrites_mem (rc : RgbeCodec) (w h y : Nat) (ps : List Rgbe) (x k : Nat)
    (p : Rgbe) (c : Nat) (hk : ps[k]? = some p) (hc : c < 3) :
    ((h - y - 1) * 3 * w + (x + k) * 3 + c, chan (rc.rgbe_to_rgb p) c) ∈
      picPixelWrites rc w h y x ps := by
  induction ps generalizing x k with
  | nil => simp at hk
  | cons q ps ih =>
    cases k with
    | zero =>
      simp only [List.getElem?_cons_zero, Option.some.injEq] at hk
      subst hk
      simp only [picPixelWrites, List.mem_cons]
      have h3 : c = 0 ∨ c = 1 ∨ c = 2 := by omega
      rcases h3 with rfl | rfl | rfl
      · left; rfl
      · right; left; rfl
      · right; right; left; rfl
    | succ k =>
      simp only [List.getElem?_cons_succ] at hk
      have := ih (x + 1) k hk
      simp only [picPixelWrites, List.mem_cons]
      right; right; right
      have e : (h - y - 1) * 3 * w + (x + (k + 1)) * 3 + c =
          (h - y - 1) * 3 * w + (x + 1 + k) * 3 + c := by ring
      rw [e]
      exact this

theorem loadPICRows_ok (fc : FloatCodec) (rc : RgbeCodec) (file : PicInput) (w h : Nat)
    (ys : List Nat) (data : List Nat)
    (hrows : ∀ y ∈ ys, ∃ row, file.scanlines[y]? = some row ∧ row.length = w) :
    (loadPICRows fc rc file w h data ys).1 = Except.ok
      (applyWrites fc data (ys.flatMap fun y => picPixelWrites rc w h y 0 (picRow file y))) := by
  induction ys generalizing data with
  | nil => rfl
  | cons y ys ih =>
    obtain ⟨row, hrow, hlen⟩ := hrows y (List.mem_cons_self _ _)
    have hread : readPicScanline file y w = Except.ok row := by
      simp only [readPicScanline, hrow, hlen, if_true]
    have hpr : picRow file y = row := by simp only [picRow, hrow, Option.getD_some]
    simp only [loadPICRows, hread, List.flatMap_cons, applyWrites_append, hpr]
    rw [ih _ (fun y' hy' => hrows y' (List.mem_cons_of_mem _ hy')),
      loadPICPixels_eq_applyWrites]

/-- The image `loadPIC` builds from a complete stream of the supported variant and
orientation: at the visual position `(x, y)` it holds the decoded pixel `x` of the
scanline delivered as number `y`. -/
theorem loadPIC_value (fc : FloatCodec) (rc : RgbeCodec) (file : PicInput)
    (hfmt : file.format = PicFormat._32_bit_rle_rgbe)
    (hres : file.resolutionType = PicResolution.neg_y_pos_x)
    (hrows : ∀ y, y < file.height →
      ∃ row, file.scanlines[y]? = some row ∧ row.length = file.width) :
    ∃ r : Image, loadPIC fc rc file = Result.ok r ∧
      r.width = file.width ∧ r.height = file.height ∧
      r.layerCount = 1 ∧ r.channels 0 = Except.ok 3 ∧
      r.format 0 = Except.ok Format.Float ∧
      ∀ (x y c : Nat) (row : List Rgbe) (p : Rgbe), y < file.height → c < 3 →
        file.scanlines[y]? = some row → row[x]? = some p →
        r.value fc x y c 0 = Except.ok (chan (rc.rgbe_to_rgb p) c) := by
  have hrows' : ∀ y ∈ List.range file.height,
      ∃ row, file.scanlines[y]? = some row ∧ row.length = file.width :=
    fun y hy => hrows y (List.mem_range.mp hy)
  have hload := loadPICRows_ok fc rc file file.width file.height (List.range file.height)
    (List.replicate (file.width * file.height * 3 * 4) 0) hrows'
  refine ⟨Image.mk1 file.width file.height 3 Format.Float
    (applyWrites fc (List.replicate (file.width * file.height * 3 * 4) 0)
      ((List.range file.height).flatMap fun y =>
        picPixelWrites rc file.width file.height y 0 (picRow file y))),
    ?_, rfl, rfl, rfl, rfl, rfl, ?_⟩
  · simp only [loadPIC, loadPICTrace, hfmt, hres, ne_eq, not_true_eq_false, if_false, hload]
  · intro x y c row p hy hc hrow hp
    have hx : x < file.width := by
      obtain ⟨row', hrow', hlen⟩ := hrows y hy
      rw [hrow] at hrow'
      injection hrow' with hrow'
      subst hrow'
      rw [← hlen]
      exact (List.getElem?_eq_some_iff.mp hp).1
    rw [value_mk1, if_pos rfl]
    have hidx : (((file.height : Int) - (y : Int) - 1) * (file.width : Int) + (x : Int)) *
        (((3 : Int).toNat : Nat) : Int) + (c : Int) =
        (((file.height - y - 1) * 3 * file.width + (0 + x) * 3 + c : Nat) : Int) := by
      have e : ((file.height - y - 1 : Nat) : Int) = (file.height : Int) - (y : Int) - 1 := by
        omega
      push_cast
      rw [e]
      ring
    rw [hidx]
    congr 1
    apply readFloat_applyWrites
    · intro wr hwr
      obtain ⟨y', hy', hin⟩ := List.mem_flatMap.mp hwr
      rw [List.mem_range] at hy'
      obtain ⟨k, q, c', hk, hc', rfl⟩ := mem_picPixelWrites rc _ _ _ _ _ _ hin
      obtain ⟨row', hrow', hlen⟩ := hrows y' hy'
      have hkw : k < file.width := by
        simp only [picRow, hrow', Option.getD_some] at hk
        rw [← hlen]
        exact (List.getElem?_eq_some_iff.mp hk).1
      have h1 : ((file.height - y' - 1) * file.width + k) * 3 + c' <
          file.height * file.width * 3 :=
        index_lt (index_lt (by omega) hkw) hc'
      have e : (file.height - y' - 1) * 3 * file.width + (0 + k) * 3 + c' =
          ((file.height - y' - 1) * file.width + k) * 3 + c' := by ring
      show ((file.height - y' - 1) * 3 * file.width + (0 + k) * 3 + c') * 4 + 4 ≤ _
      rw [e, List.length_replicate]
      have e2 : file.width * file.height * 3 * 4 = file.height * file.width * 3 * 4 := by ring
      omega
    · refine ⟨((file.height - y - 1) * 3 * file.width + (0 + x) * 3 + c,
        chan (rc.rgbe_to_rgb p) c), List.mem_flatMap.mpr ⟨y, List.mem_range.mpr hy, ?_⟩, rfl⟩
      apply picPixelWrites_mem rc _ _ _ _ 0 x p c _ hc
      simp only [picRow, hrow, Option.getD_some, hp]
    · intro wr hwr hi
      obtain ⟨y', hy', hin⟩ := List.mem_flatMap.mp hwr
      rw [List.mem_range] at hy'
      obtain ⟨k, q, c', hk, hc', rfl⟩ := mem_picPixelWrites rc _ _ _ _ _ _ hin
      obtain ⟨row', hrow', hlen⟩ := hrows y' hy'
      simp only [picRow, hrow', Option.getD_some] at hk
      have hkw : k < file.width := by
        rw [← hlen]
        exact (List.getElem?_eq_some_iff.mp hk).1
      have hi' : ((file.height - y' - 1) * file.width + k) * 3 + c' =
          ((file.height - y - 1) * file.width + x) * 3 + c := by
        have hi2 : (file.height - y' - 1) * 3 * file.width + (0 + k) * 3 + c' =
            (file.height - y - 1) * 3 * file.width + (0 + x) * 3 + c := hi
        have e1 : (file.height - y' - 1) * 3 * file.width + (0 + k) * 3 + c' =
            ((file.height - y' - 1) * file.width + k) * 3 + c' := by ring
        have e2 : (file.height - y - 1) * 3 * file.width + (0 + x) * 3 + c =
            ((file.height - y - 1) * file.width + x) * 3 + c := by ring
        rw [← e1, ← e2]
        exact hi2
      obtain ⟨h1, h2⟩ := mul_add_inj hc' hc hi'
      obtain ⟨h3, h4⟩ := mul_add_inj hkw hx h1
      have hyy : y' = y := by omega
      subst hyy
      subst h4
      subst h2
      rw [hrow] at hrow'
      injection hrow' with hrow'
      subst hrow'
      rw [hp] at hk
      injection hk with hk
      subst hk
      rfl

/-- C5 (amended): for a Radiance-style input of the supported variant and orientation
with height at least 2 whose scanlines are delivered top visual row first,
`value(x, y, c, 0)` of the loaded image is channel `c` of the decoded pixel `x` of the
scanline delivered as number `y`: `value(x, 0, c, 0)` reads the top visual row (the first
scanline delivered), and the bottom visual row (the last scanline delivered) is read at
`y = height - 1`. -/
theorem loadPIC_value_row (fc : FloatCodec) (rc : RgbeCodec) (file : PicInput)
    (hfmt : file.format = PicFormat._32_bit_rle_rgbe)
    (hres : file.resolutionType = PicResolution.neg_y_pos_x)
    (hrows : ∀ y, y < file.height →
      ∃ row, file.scanlines[y]? = some row ∧ row.length = file.width)
    (hh : 2 ≤ file.height) :
    ∃ r : Image, loadPIC fc rc file = Result.ok r ∧
      (∀ (x y c : Nat) (row : List Rgbe) (p : Rgbe), y < file.height → c < 3 →
        file.scanlines[y]? = some row → row[x]? = some p →
        r.value fc x y c 0 = Except.ok (chan (rc.rgbe_to_rgb p) c)) ∧
      (∀ (x c : Nat) (row : List Rgbe) (p : Rgbe), c < 3 →
        file.scanlines[0]? = some row → row[x]? = some p →
        r.value fc x 0 c 0 = Except.ok (chan (rc.rgbe_to_rgb p) c)) ∧
      (∀ (x c : Nat) (row : List Rgbe) (p : Rgbe), c < 3 →
        file.scanlines[file.height - 1]? = some row → row[x]? = some p →
        r.value fc x ((file.height - 1 : Nat) : Int) c 0 =
          Except.ok (chan (rc.rgbe_to_rgb p) c)) := by
  obtain ⟨r, hr, _, _, _, _, _, hv⟩ := loadPIC_value fc rc file hfmt hres hrows
  refine ⟨r, hr, hv, ?_, ?_⟩
  · intro x c row p hc hrow hp
    exact hv x 0 c row p (by omega) hc hrow hp
  · intro x c row p hc hrow hp
    exact hv x (file.height - 1) c row p (by omega) hc hrow hp

theorem pic2x2_rows : ∀ y, y < pic2x2.height →
    ∃ row, pic2x2.scanlines[y]? = some row ∧ row.length = pic2x2.width := by
  intro y hy
  have h2 : y = 0 ∨ y = 1 := by
    have : y < 2 := hy
    omega
  rcases h2 with rfl | rfl
  · exact ⟨_, rfl, rfl⟩
  · exact ⟨_, rfl, rfl⟩

/-- Witness for C5: the 2x2 input with distinct rows. -/
theorem loadPIC_value_row_witness :
    ∃ r : Image, loadPIC ratCodec trivialRgbe pic2x2 = Result.ok r ∧
      (∀ (x y c : Nat) (row : List Rgbe) (p : Rgbe), y < pic2x2.height → c < 3 →
        pic2x2.scanlines[y]? = some row → row[x]? = some p →
        r.value ratCodec x y c 0 = Except.ok (chan (trivialRgbe.rgbe_to_rgb p) c)) ∧
      (∀ (x c : Nat) (row : List Rgbe) (p : Rgbe), c < 3 →
        pic2x2.scanlines[0]? = some row → row[x]? = some p →
        r.value ratCodec x 0 c 0 = Except.ok (chan (trivialRgbe.rgbe_to_rgb p) c)) ∧
      (∀ (x c : Nat) (row : List Rgbe) (p : Rgbe), c < 3 →
        pic2x2.scanlines[pic2x2.height - 1]? = some row → row[x]? = some p →
        r.value ratCodec x ((pic2x2.height - 1 : Nat) : Int) c 0 =
          Except.ok (chan (trivialRgbe.rgbe_to_rgb p) c)) :=
  loadPIC_value_row ratCodec trivialRgbe pic2x2 rfl rfl pic2x2_rows (by decide)

/-- C5 (counterexample): for the 2x2 input whose top row decodes to 1 and 2 and whose
bottom row, the last scanline delivered, decodes to 3 and 4, `value(0, 0, 0, 0)` of the
loaded image is 1, not the 3 of the bottom row. -/
theorem loadPIC_row_zero_counterexample :
    ∃ r : Image, loadPIC ratCodec trivialRgbe pic2x2 = Result.ok r ∧
      r.value ratCodec 0 0 0 0 = Except.ok 1 ∧
      pic2x2.scanlines.getLast? = some [⟨3, 3, 3, 0⟩, ⟨4, 4, 4, 0⟩] ∧
      chan (trivialRgbe.rgbe_to_rgb ⟨3, 3, 3, 0⟩) 0 = 3 ∧
      (1 : ℚ) ≠ 3 := by
  obtain ⟨r, hr, _, _, _, _, _, hv⟩ :=
    loadPIC_value ratCodec trivialRgbe pic2x2 rfl rfl pic2x2_rows
  refine ⟨r, hr, ?_, rfl, ?_, by norm_num⟩
  · have h := hv 0 0 0 [⟨1, 1, 1, 0⟩, ⟨2, 2, 2, 0⟩] ⟨1, 1, 1, 0⟩ (by decide) (by decide)
      rfl rfl
    simp only [Nat.cast_zero] at h
    rw [h]
    simp [chan, trivialRgbe]
  · simp [chan, trivialRgbe]

/-! ## Radiance adapter: store then load -/

theorem picScanlinesOf_map {α : Type} (f : α → List Rgbe) (xs : List α) :
    picScanlinesOf (xs.map fun y => PicWrite.write_scanline (f y)) = xs.map f := by
  induction xs with
  | nil => rfl
  | cons x xs ih =>
    simp only [List.map_cons, picScanlinesOf, ih]

/-- C7: for an image with a single Float layer of 3 channels (and the non-negative
dimensions of the data model), `loadPIC` applied to the headers and scanlines that
`storePIC(path, 0)` writes returns Ok with an image of the same width and height and 3
channels in which the RGB triple at every in-range `(x, y)` is
`rgbe_to_rgb(rgb_to_rgbe(t))` for the original triple `t` at the same `(x, y)`; where the
RGBE conversion round-trips `t` exactly the loaded values equal the original ones. -/
theorem storePIC_loadPIC_roundtrip (fc : FloatCodec) (rc : RgbeCodec) (img : Image)
    (l : Layer) (path : String)
    (hlayers : img.layers = [l]) (hf : l.format = Format.Float)
    (_hch : l.channels.length = 3) (hw : 0 ≤ img.width) (hh : 0 ≤ img.height) :
    ∃ (ops : List PicWrite) (file : PicInput) (r : Image),
      img.storePIC fc rc path 0 = Except.ok (Result.ok true, ops) ∧
      picFileOf ops = some file ∧
      loadPIC fc rc file = Result.ok r ∧
      r.width = img.width ∧ r.height = img.height ∧
      r.layerCount = 1 ∧ r.channels 0 = Except.ok 3 ∧
      ∀ x y : Nat, (x : Int) < img.width → (y : Int) < img.height →
        ∃ t : ℚ × ℚ × ℚ,
          img.value fc x y 0 0 = Except.ok t.1 ∧
          img.value fc x y 1 0 = Except.ok t.2.1 ∧
          img.value fc x y 2 0 = Except.ok t.2.2 ∧
          (∀ c : Nat, c < 3 →
            r.value fc x y c 0 = Except.ok (chan (rc.rgbe_to_rgb (rc.rgb_to_rgbe t)) c)) ∧
          (rc.rgbe_to_rgb (rc.rgb_to_rgbe t) = t →
            ∀ c : Nat, c < 3 → r.value fc x y c 0 = img.value fc x y c 0) := by
  have hl : img.layerAt 0 = Except.ok l := by
    rw [layerAt_eq_ok, hlayers]; simp
  have hnn : ¬ l.format ≠ Format.Float := by rw [hf]; simp
  have hfile_rows : ∀ y, y < img.height.toNat →
      ((List.range img.height.toNat).map (storePICScanline fc rc img l))[y]? =
        some (storePICScanline fc rc img l y) := by
    intro y hy
    rw [List.getElem?_map, List.getElem?_range hy]
    rfl
  obtain ⟨r, hr, hrw, hrh, hrl, hrc, _, hv⟩ := loadPIC_value fc rc
    { format := PicFormat._32_bit_rle_rgbe, exposure := 1,
      resolutionType := PicResolution.neg_y_pos_x,
      width := img.width.toNat, height := img.height.toNat,
      scanlines := (List.range img.height.toNat).map (storePICScanline fc rc img l) }
    rfl rfl (by
      intro y hy
      refine ⟨_, hfile_rows y hy, ?_⟩
      simp only [storePICScanline, List.length_map, List.length_range])
  refine ⟨[PicWrite.openStream path,
      PicWrite.write_information_header PicFormat._32_bit_rle_rgbe 1,
      PicWrite.write_resolution_string PicResolution.neg_y_pos_x img.width.toNat
        img.height.toNat] ++
      (List.range img.height.toNat).map fun y =>
        PicWrite.write_scanline (storePICScanline fc rc img l y), _, r,
    ?_, ?_, hr, ?_, ?_, hrl, hrc, ?_⟩
  · simp only [Image.storePIC, hl, bind, Except.bind, hnn, if_false, pure, Except.pure]
  · simp only [List.cons_append, List.nil_append, picFileOf, picScanlinesOf_map]
  · rw [hrw]
    show ((img.width.toNat : Nat) : Int) = img.width
    omega
  · rw [hrh]
    show ((img.height.toNat : Nat) : Int) = img.height
    omega
  · intro x y hx hy
    have hpx : (storePICScanline fc rc img l y)[x]? = some
        (rc.rgb_to_rgbe (img.valueIn fc l x y 0, img.valueIn fc l x y 1,
          img.valueIn fc l x y 2)) := by
      simp only [storePICScanline]
      rw [List.getElem?_map, List.getElem?_range (by omega)]
      rfl
    have hload : ∀ c : Nat, c < 3 → r.value fc x y c 0 = Except.ok
        (chan (rc.rgbe_to_rgb (rc.rgb_to_rgbe (img.valueIn fc l x y 0,
          img.valueIn fc l x y 1, img.valueIn fc l x y 2))) c) := by
      intro c hc
      exact hv x y c _ _ (by show y < img.height.toNat; omega) hc
        (hfile_rows y (by omega)) hpx
    refine ⟨(img.valueIn fc l x y 0, img.valueIn fc l x y 1, img.valueIn fc l x y 2),
      value_eq_valueIn fc img l 0 hl _ _ _, value_eq_valueIn fc img l 0 hl _ _ _,
      value_eq_valueIn fc img l 0 hl _ _ _, hload, ?_⟩
    intro hrt c hc
    rw [hload c hc, hrt, value_eq_valueIn fc img l 0 hl]
    have h3 : c = 0 ∨ c = 1 ∨ c = 2 := by omega
    rcases h3 with rfl | rfl | rfl <;> simp [chan]

/-- Witness for C7: the 1x2 three-channel Float image. -/
theorem storePIC_loadPIC_roundtrip_witness :
    ∃ (ops : List PicWrite) (file : PicInput) (r : Image),
      imageFloat1x2.storePIC ratCodec trivialRgbe "out.pic" 0 =
        Except.ok (Result.ok true, ops) ∧
      picFileOf ops = some file ∧
      loadPIC ratCodec trivialRgbe file = Result.ok r ∧
      r.width = imageFloat1x2.width ∧ r.height = imageFloat1x2.height ∧
      r.layerCount = 1 ∧ r.channels 0 = Except.ok 3 ∧
      ∀ x y : Nat, (x : Int) < imageFloat1x2.width → (y : Int) < imageFloat1x2.height →
        ∃ t : ℚ × ℚ × ℚ,
          imageFloat1x2.value ratCodec x y 0 0 = Except.ok t.1 ∧
          imageFloat1x2.value ratCodec x y 1 0 = Except.ok t.2.1 ∧
          imageFloat1x2.value ratCodec x y 2 0 = Except.ok t.2.2 ∧
          (∀ c : Nat, c < 3 →
            r.value ratCodec x y c 0 = Except.ok
              (chan (trivialRgbe.rgbe_to_rgb (trivialRgbe.rgb_to_rgbe t)) c)) ∧
          (trivialRgbe.rgbe_to_rgb (trivialRgbe.rgb_to_rgbe t) = t →
            ∀ c : Nat, c < 3 →
              r.value ratCodec x y c 0 = imageFloat1x2.value ratCodec x y c 0) :=
  storePIC_loadPIC_roundtrip ratCodec trivialRgbe imageFloat1x2 _ "out.pic" rfl rfl rfl
    (by decide) (by decide)

/-! ## Floating-point map adapter: load, and store then load -/

theorem writeFloats_eq_applyWrites (fc : FloatCodec) (vs : List ℚ) (i : Nat)
    (data : List Nat) :
    writeFloats fc data i vs = applyWrites fc data (floatWrites i vs) := by
  induction vs generalizing i data with
  | nil => rfl
  | cons v vs ih =>
    simp only [writeFloats, floatWrites, applyWrites, List.foldl_cons]
    rw [ih]
    rfl

theorem mem_floatWrites (vs : List ℚ) (i : Nat) (wr : Nat × ℚ) :
    wr ∈ floatWrites i vs ↔ ∃ k, vs[k]? = some wr.2 ∧ wr.1 = i + k := by
  induction vs generalizing i with
  | nil => simp [floatWrites]
  | cons v vs ih =>
    simp only [floatWrites, List.mem_cons, ih]
    constructor
    · rintro (h | ⟨k, hk, hi⟩)
      · exact ⟨0, by rw [h]; simp, by rw [h]; rfl⟩
      · exact ⟨k + 1, by simpa using hk, by omega⟩
    · rintro ⟨k, hk, hi⟩
      cases k with
      | zero =>
        left
        simp only [List.getElem?_cons_zero, Option.some.injEq] at hk
        exact Prod.ext hi hk.symm
      | succ k =>
        right
        exact ⟨k, by simpa using hk, by omega⟩

theorem loadPFMRows_ok (fc : FloatCodec) (file : PfmInput) (w c : Nat)
    (ys : List Nat) (data : List Nat)
    (hrows : ∀ y ∈ ys, ∃ row, file.scanlines[y]? = some row ∧ row.length = w * c) :
    loadPFMRows fc file w c data ys = Except.ok
      (applyWrites fc data (ys.flatMap fun y => floatWrites (y * w * c) (pfmRow file y))) := by
  induction ys generalizing data with
  | nil => rfl
  | cons y ys ih =>
    obtain ⟨row, hrow, hlen⟩ := hrows y (List.mem_cons_self _ _)
    have hread : readPfmScanline file y (w * c) = Except.ok row := by
      simp only [readPfmScanline, hrow, hlen, if_true]
    have hpr : pfmRow file y = row := by simp only [pfmRow, hrow, Option.getD_some]
    simp only [loadPFMRows, hread, List.flatMap_cons, applyWrites_append, hpr]
    rw [ih _ (fun y' hy' => hrows y' (List.mem_cons_of_mem _ hy')),
      writeFloats_eq_applyWrites]

/-- The image `loadPFM` builds from a complete stream: scanline `y` of the stream becomes
stored row `y`, so the visual position `(x, y)` holds the floats of scanline
`height - 1 - y`. -/
theorem loadPFM_value (fc : FloatCodec) (file : PfmInput)
    (hrows : ∀ y, y < file.height →
      ∃ row, file.scanlines[y]? = some row ∧ row.length = file.width * pfmChannels file) :
    ∃ r : Image, loadPFM fc file = Result.ok r ∧
      r.width = file.width ∧ r.height = file.height ∧
      r.layerCount = 1 ∧ r.channels 0 = Except.ok (pfmChannels file : Int) ∧
      r.format 0 = Except.ok Format.Float ∧
      ∀ (x y c : Nat) (row : List ℚ) (q : ℚ), x < file.width → y < file.height →
        c < pfmChannels file →
        file.scanlines[file.height - 1 - y]? = some row →
        row[x * pfmChannels file + c]? = some q →
        r.value fc x y c 0 = Except.ok q := by
  have hrows' : ∀ y ∈ List.range file.height,
      ∃ row, file.scanlines[y]? = some row ∧ row.length = file.width * pfmChannels file :=
    fun y hy => hrows y (List.mem_range.mp hy)
  have hload := loadPFMRows_ok fc file file.width (pfmChannels file) (List.range file.height)
    (List.replicate (file.width * file.height * pfmChannels file * 4) 0) hrows'
  refine ⟨Image.mk1 file.width file.height (pfmChannels file : Int) Format.Float
    (applyWrites fc (List.replicate (file.width * file.height * pfmChannels file * 4) 0)
      ((List.range file.height).flatMap fun y =>
        floatWrites (y * file.width * pfmChannels file) (pfmRow file y))),
    ?_, rfl, rfl, rfl, ?_, rfl, ?_⟩
  · simp only [loadPFM]
    rw [show (if file.format = PfmFormat.color_format then 3 else 1) = pfmChannels file from rfl,
      hload]
  · simp only [Image.channels, layerAt_mk1, bind, Except.bind, pure, Except.pure,
      length_resize, Int.toNat_ofNat]
  · intro x y c row q hx hy hc hrow hq
    rw [value_mk1, if_pos rfl]
    have hidx : (((file.height : Int) - (y : Int) - 1) * (file.width : Int) + (x : Int)) *
        ((((pfmChannels file : Nat) : Int).toNat : Nat) : Int) + (c : Int) =
        ((((file.height - 1 - y) * file.width * pfmChannels file +
          (x * pfmChannels file + c) : Nat)) : Int) := by
      have e : ((file.height - 1 - y : Nat) : Int) = (file.height : Int) - (y : Int) - 1 := by
        omega
      rw [Int.toNat_ofNat]
      push_cast
      rw [e]
      ring
    rw [hidx]
    congr 1
    apply readFloat_applyWrites
    · intro wr hwr
      obtain ⟨y', hy', hin⟩ := List.mem_flatMap.mp hwr
      rw [List.mem_range] at hy'
      obtain ⟨k, hk, hi⟩ := (mem_floatWrites _ _ _).mp hin
      obtain ⟨row', hrow', hlen⟩ := hrows y' hy'
      have hkw : k < file.width * pfmChannels file := by
        simp only [pfmRow, hrow', Option.getD_some] at hk
        rw [← hlen]
        exact (List.getElem?_eq_some_iff.mp hk).1
      have h1 : y' * (file.width * pfmChannels file) + k <
          file.height * (file.width * pfmChannels file) := index_lt hy' hkw
      rw [hi, List.length_replicate]
      have e1 : y' * file.width * pfmChannels file = y' * (file.width * pfmChannels file) := by
        ring
      have e2 : file.width * file.height * pfmChannels file * 4 =
          file.height * (file.width * pfmChannels file) * 4 := by ring
      omega
    · refine ⟨(((file.height - 1 - y) * file.width * pfmChannels file +
        (x * pfmChannels file + c)), q), List.mem_flatMap.mpr
        ⟨file.height - 1 - y, List.mem_range.mpr (by omega), ?_⟩, rfl⟩
      rw [mem_floatWrites]
      refine ⟨x * pfmChannels file + c, ?_, rfl⟩
      simp only [pfmRow, hrow, Option.getD_some, hq]
    · intro wr hwr hi
      obtain ⟨y', hy', hin⟩ := List.mem_flatMap.mp hwr
      rw [List.mem_range] at hy'
      obtain ⟨k, hk, hi'⟩ := (mem_floatWrites _ _ _).mp hin
      obtain ⟨row', hrow', hlen⟩ := hrows y' hy'
      simp only [pfmRow, hrow', Option.getD_some] at hk
      have hkw : k < file.width * pfmChannels file := by
        rw [← hlen]
        exact (List.getElem?_eq_some_iff.mp hk).1
      have hxc : x * pfmChannels file + c < file.width * pfmChannels file := index_lt hx hc
      have heq : y' * (file.width * pfmChannels file) + k =
          (file.height - 1 - y) * (file.width * pfmChannels file) +
            (x * pfmChannels file + c) := by
        have e1 : y' * file.width * pfmChannels file =
            y' * (file.width * pfmChannels file) := by ring
        have e2 : (file.height - 1 - y) * file.width * pfmChannels file =
            (file.height - 1 - y) * (file.width * pfmChannels file) := by ring
        rw [← e1, ← e2, ← hi', hi]
      obtain ⟨h1, h2⟩ := mul_add_inj hkw hxc heq
      subst h1
      subst h2
      rw [hrow] at hrow'
      injection hrow' with hrow'
      subst hrow'
      rw [hq] at hk
      injection hk with hk
      exact hk.symm

theorem length_flatten_triples {α : Type} (f : α → List ℚ) (hf : ∀ a, (f a).length = 3)
    (xs : List α) : ((xs.map f).flatten).length = xs.length * 3 := by
  induction xs with
  | nil => rfl
  | cons a xs ih =>
    simp only [List.map_cons, List.flatten_cons, List.length_append, hf, ih, List.length_cons]
    ring

theorem getElem?_flatten_triples {α : Type} (f : α → List ℚ) (hf : ∀ a, (f a).length = 3)
    (xs : List α) (k c : Nat) (hc : c < 3) (a : α) (hk : xs[k]? = some a) :
    ((xs.map f).flatten)[k * 3 + c]? = (f a)[c]? := by
  induction xs generalizing k with
  | nil => simp at hk
  | cons b xs ih =>
    simp only [List.map_cons, List.flatten_cons]
    cases k with
    | zero =>
      simp only [List.getElem?_cons_zero, Option.some.injEq] at hk
      subst hk
      rw [List.getElem?_append_left (by rw [hf]; omega)]
      simp
    | succ k =>
      simp only [List.getElem?_cons_succ] at hk
      rw [List.getElem?_append_right (by rw [hf]; omega), hf]
      have e : (k + 1) * 3 + c - 3 = k * 3 + c := by omega
      rw [e]
      exact ih k hk

theorem pfmScanlinesOf_map {α : Type} (f : α → List ℚ) (xs : List α) :
    pfmScanlinesOf (xs.map fun y => PfmWrite.write_color_scanline (f y)) = xs.map f := by
  induction xs with
  | nil => rfl
  | cons x xs ih =>
    simp only [List.map_cons, pfmScanlinesOf, ih]

/-- What `loadPFM` reads back from what `storePFM(path, 0)` writes, for a Float layer of
any channel count: the header says colour, so the loaded image has three channels, and
its channel `c` at `(x, y)` is the original's `value(x, y, c, 0)` for `c` = 0, 1, 2. -/
theorem storePFM_loadPFM (fc : FloatCodec) (img : Image) (l : Layer) (path : String)
    (hl : img.layerAt 0 = Except.ok l) (hf : l.format = Format.Float)
    (hw : 0 ≤ img.width) (hh : 0 ≤ img.height) :
    ∃ (ops : List PfmWrite) (file : PfmInput) (r : Image),
      img.storePFM fc path 0 = Except.ok (Result.ok true, ops) ∧
      pfmFileOf ops = some file ∧
      file.format = PfmFormat.color_format ∧
      loadPFM fc file = Result.ok r ∧
      r.width = img.width ∧ r.height = img.height ∧
      r.layerCount = 1 ∧ r.channels 0 = Except.ok 3 ∧
      ∀ x y c : Nat, (x : Int) < img.width → (y : Int) < img.height → c < 3 →
        r.value fc x y c 0 = img.value fc x y c 0 := by
  have hnn : ¬ l.format ≠ Format.Float := by rw [hf]; simp
  have htrip : ∀ (y : Nat) (x : Nat), ([img.valueIn fc l x y 0, img.valueIn fc l x y 1,
      img.valueIn fc l x y 2] : List ℚ).length = 3 := fun _ _ => rfl
  have hfile_rows : ∀ k, k < img.height.toNat →
      ((List.range img.height.toNat).reverse.map (storePFMScanline fc img l))[k]? =
        some (storePFMScanline fc img l (img.height.toNat - 1 - k)) := by
    intro k hk
    rw [List.getElem?_map, List.getElem?_reverse (by simpa using hk), List.length_range,
      List.getElem?_range (by omega)]
    rfl
  have hchan : pfmChannels
      { format := PfmFormat.color_format, width := img.width.toNat,
        height := img.height.toNat, byteOrder := PfmByteOrder.host_byte_order, scale := 1,
        scanlines := (List.range img.height.toNat).reverse.map (storePFMScanline fc img l) }
      = 3 := rfl
  obtain ⟨r, hr, hrw, hrh, hrl, hrc, _, hv⟩ := loadPFM_value fc
    { format := PfmFormat.color_format, width := img.width.toNat,
      height := img.height.toNat, byteOrder := PfmByteOrder.host_byte_order, scale := 1,
      scanlines := (List.range img.height.toNat).reverse.map (storePFMScanline fc img l) }
    (by
      intro y hy
      refine ⟨_, hfile_rows y hy, ?_⟩
      rw [hchan]
      simp only [storePFMScanline]
      rw [length_flatten_triples _ (htrip _), List.length_range])
  refine ⟨[PfmWrite.openStream path,
      PfmWrite.write_header PfmFormat.color_format img.width.toNat img.height.toNat
        PfmByteOrder.host_byte_order 1] ++
      (List.range img.height.toNat).reverse.map fun y =>
        PfmWrite.write_color_scanline (storePFMScanline fc img l y), _, r,
    ?_, ?_, rfl, hr, ?_, ?_, hrl, ?_, ?_⟩
  · simp only [Image.storePFM, hl, bind, Except.bind, hnn, if_false, pure, Except.pure]
  · simp only [List.cons_append, List.nil_append, pfmFileOf, pfmScanlinesOf_map]
  · rw [hrw]
    show ((img.width.toNat : Nat) : Int) = img.width
    omega
  · rw [hrh]
    show ((img.height.toNat : Nat) : Int) = img.height
    omega
  · rw [hrc, hchan]
    rfl
  · intro x y c hx hy hc
    rw [value_eq_valueIn fc img l 0 hl]
    have hy' : y < img.height.toNat := by omega
    have hx' : x < img.width.toNat := by omega
    apply hv x y c (storePFMScanline fc img l y) _ hx' hy' (by rw [hchan]; exact hc)
    · have e : img.height.toNat - 1 - (img.height.toNat - 1 - y) = y := by omega
      have := hfile_rows (img.height.toNat - 1 - y) (by omega)
      rw [e] at this
      exact this
    · rw [hchan]
      simp only [storePFMScanline]
      rw [getElem?_flatten_triples _ (htrip y) _ x c hc x (List.getElem?_range hx')]
      have h3 : c = 0 ∨ c = 1 ∨ c = 2 := by omega
      rcases h3 with rfl | rfl | rfl <;> simp

/-- C6 (the code at the failing input): for the 2x2 single-channel Float image,
`storePFM(path, 0)` writes a colour header and `loadPFM` of what it wrote returns an image
with 3 channels, while the original has 1; the loaded channel 1 of the bottom-left pixel
is the original's neighbouring sample 4, read through `value(0, 1, 1, 0)`. -/
theorem storePFM_loadPFM_gray (path : String) :
    imageGray2x2.format 0 = Except.ok Format.Float ∧
    imageGray2x2.channels 0 = Except.ok 1 ∧
    ∃ (ops : List PfmWrite) (file : PfmInput) (r : Image),
      imageGray2x2.storePFM ratCodec path 0 = Except.ok (Result.ok true, ops) ∧
      pfmFileOf ops = some file ∧
      file.format = PfmFormat.color_format ∧
      loadPFM ratCodec file = Result.ok r ∧
      r.channels 0 = Except.ok 3 ∧
      r.value ratCodec 0 1 0 0 = Except.ok 3 ∧
      r.value ratCodec 0 1 1 0 = Except.ok 4 := by
  refine ⟨rfl, rfl, ?_⟩
  obtain ⟨ops, file, r, h1, h2, h3, h4, _, _, _, h5, hv⟩ :=
    storePFM_loadPFM ratCodec imageGray2x2 _ path (layerAt_mk1 2 2 1 Format.Float _) rfl
      (by decide) (by decide)
  refine ⟨ops, file, r, h1, h2, h3, h4, h5, ?_, ?_⟩
  · have h := hv 0 1 0 (by decide) (by decide) (by decide)
    simp only [Nat.cast_zero, Nat.cast_one] at h
    rw [h, imageGray2x2, value_mk1]
    simp [readFloat, ratCodec]
  · have h := hv 0 1 1 (by decide) (by decide) (by decide)
    simp only [Nat.cast_zero, Nat.cast_one] at h
    rw [h, imageGray2x2, value_mk1]
    simp [readFloat, ratCodec]

/-! ## Layer reconstruction: the key order -/

theorem charsLt_irrefl (a : List Char) : charsLt a a = false := by
  induction a with
  | nil => rfl
  | cons c cs ih => simp [charsLt, ih]

theorem charsLt_trans {a b c : List Char} (hab : charsLt a b = true)
    (hbc : charsLt b c = true) : charsLt a c = true := by
  induction a generalizing b c with
  | nil =>
    cases b with
    | nil => simp [charsLt] at hab
    | cons y ys =>
      cases c with
      | nil => simp [charsLt] at hbc
      | cons z zs => rfl
  | cons x xs ih =>
    cases b with
    | nil => simp [charsLt] at hab
    | cons y ys =>
      cases c with
      | nil => simp [charsLt] at hbc
      | cons z zs =>
        simp only [charsLt] at hab hbc ⊢
        by_cases h1 : x.toNat < y.toNat
        · by_cases h2 : y.toNat < z.toNat
          · have : x.toNat < z.toNat := by omega
            simp [this]
          · by_cases h3 : y.toNat = z.toNat
            · have : x.toNat < z.toNat := by omega
              simp [this]
            · simp [h2, h3] at hbc
        · by_cases h1' : x.toNat = y.toNat
          · simp only [h1, h1', lt_self_iff_false, if_false, if_true] at hab
            by_cases h2 : y.toNat < z.toNat
            · have : x.toNat < z.toNat := by omega
              simp [this]
            · by_cases h3 : y.toNat = z.toNat
              · simp only [h2, h3, lt_self_iff_false, if_false, if_true] at hbc
                have hxz : x.toNat = z.toNat := by omega
                have hnlt : ¬ x.toNat < z.toNat := by omega
                simp only [hnlt, hxz, lt_self_iff_false, if_false, if_true]
                exact ih hab hbc
              · simp [h2, h3] at hbc
          · simp [h1, h1'] at hab

theorem charsLt_trichotomy {a b : List Char} (hab : charsLt a b = false)
    (hba : charsLt b a = false) : a = b := by
  induction a generalizing b with
  | nil =>
    cases b with
    | nil => rfl
    | cons y ys => simp [charsLt] at hab
  | cons x xs ih =>
    cases b with
    | nil => simp [charsLt] at hba
    | cons y ys =>
      simp only [charsLt] at hab hba
      by_cases h1 : x.toNat < y.toNat
      · simp [h1] at hab
      · by_cases h2 : y.toNat < x.toNat
        · simp [h2] at hba
        · have heq : x.toNat = y.toNat := by omega
          have hc : x = y := Char.ext (UInt32.ext heq)
          subst hc
          simp only [lt_self_iff_false, if_false, if_true] at hab hba
          rw [ih hab hba]

theorem strLt_irrefl (a : String) : strLt a a = false := charsLt_irrefl _

theorem strLt_trans {a b c : String} (hab : strLt a b = true) (hbc : strLt b c = true) :
    strLt a c = true := charsLt_trans hab hbc

theorem strLt_trichotomy {a b : String} (hab : strLt a b = false) (hba : strLt b a = false) :
    a = b := String.ext (charsLt_trichotomy hab hba)

theorem strLt_asymm {a b : String} (hab : strLt a b = true) : strLt b a = false := by
  by_contra h
  have h' : strLt b a = true := by simpa using h
  have := strLt_trans hab h'
  rw [strLt_irrefl] at this
  exact Bool.false_ne_true this

/-! ## Layer reconstruction: the map operations -/

theorem mapFind_eq_none_of_lt (m : LayerMap) (k : String)
    (h : ∀ e ∈ m, strLt k e.1 = true) : mapFind m k = none := by
  induction m with
  | nil => rfl
  | cons e m ih =>
    obtain ⟨k', v⟩ := e
    have hk : strLt k k' = true := h (k', v) (List.mem_cons_self _ _)
    have hne : ¬ k' = k := by
      intro hc
      rw [hc, strLt_irrefl] at hk
      exact Bool.false_ne_true hk
    simp only [mapFind, hne, if_false]
    exact ih (fun e he => h e (List.mem_cons_of_mem _ he))

theorem mem_keys_of_mapFind (m : LayerMap) (k : String) (v : List String)
    (h : mapFind m k = some v) : (k, v) ∈ m := by
  induction m with
  | nil => simp [mapFind] at h
  | cons e m ih =>
    obtain ⟨k', w⟩ := e
    simp only [mapFind] at h
    by_cases hk : k' = k
    · simp only [hk, if_true, Option.some.injEq] at h
      rw [hk, h]
      exact List.mem_cons_self _ _
    · simp only [hk, if_false] at h
      exact List.mem_cons_of_mem _ (ih h)

/-- Two maps in strictly ascending key order that answer every `find` alike are equal. -/
theorem LayerMap_ext (m₁ m₂ : LayerMap) (h₁ : KeysSorted m₁) (h₂ : KeysSorted m₂)
    (h : ∀ k, mapFind m₁ k = mapFind m₂ k) : m₁ = m₂ := by
  induction m₁ generalizing m₂ with
  | nil =>
    cases m₂ with
    | nil => rfl
    | cons e m₂ =>
      have := h e.1
      simp [mapFind] at this
  | cons e₁ r₁ ih =>
    cases m₂ with
    | nil =>
      have := h e₁.1
      simp [mapFind] at this
    | cons e₂ r₂ =>
      obtain ⟨k₁, v₁⟩ := e₁
      obtain ⟨k₂, v₂⟩ := e₂
      have hs₁ := List.pairwise_cons.mp h₁
      have hs₂ := List.pairwise_cons.mp h₂
      have hk : k₁ = k₂ := by
        by_contra hne
        have f₁ : mapFind ((k₂, v₂) :: r₂) k₁ = some v₁ := by
          rw [← h k₁]; simp [mapFind]
        have f₂ : mapFind ((k₁, v₁) :: r₁) k₂ = some v₂ := by
          rw [h k₂]; simp [mapFind]
        have hne' : ¬ k₂ = k₁ := fun hc => hne hc.symm
        simp only [mapFind, hne', if_false] at f₁
        simp only [mapFind, hne, if_false] at f₂
        have l₁ : strLt k₂ k₁ = true := hs₂.1 _ (mem_keys_of_mapFind _ _ _ f₁)
        have l₂ : strLt k₁ k₂ = true := hs₁.1 _ (mem_keys_of_mapFind _ _ _ f₂)
        rw [strLt_asymm l₁] at l₂
        exact Bool.false_ne_true l₂
      subst hk
      have hv : v₁ = v₂ := by
        have := h k₁
        simpa [mapFind] using this
      subst hv
      have hrest : r₁ = r₂ := by
        apply ih r₂ hs₁.2 hs₂.2
        intro k
        by_cases hk : k₁ = k
        · subst hk
          rw [mapFind_eq_none_of_lt r₁ k₁ (fun e he => hs₁.1 e he),
            mapFind_eq_none_of_lt r₂ k₁ (fun e he => hs₂.1 e he)]
        · have := h k
          simpa [mapFind, hk] using this
      rw [hrest]

theorem mapFind_cons (k₀ : String) (v₀ : List String) (m : LayerMap) (k : String) :
    mapFind ((k₀, v₀) :: m) k = if k₀ = k then some v₀ else mapFind m k := rfl

theorem mapPushBack_cons (k₀ : String) (v₀ : List String) (m : LayerMap) (k c : String) :
    mapPushBack ((k₀, v₀) :: m) k c =
      (if k₀ = k then (k₀, v₀ ++ [c]) else (k₀, v₀)) :: mapPushBack m k c := rfl

theorem mapFind_mapPushBack (m : LayerMap) (k c k' : String) :
    mapFind (mapPushBack m k c) k' =
      if k' = k then (mapFind m k).map (· ++ [c]) else mapFind m k' := by
  induction m with
  | nil =>
    show (none : Option (List String)) = _
    by_cases hk : k' = k
    · rw [if_pos hk]; rfl
    · rw [if_neg hk]; rfl
  | cons e m ih =>
    obtain ⟨k₀, v₀⟩ := e
    rw [mapPushBack_cons]
    by_cases h₀ : k₀ = k
    · rw [if_pos h₀]
      simp only [mapFind_cons, ih]
      by_cases hk : k' = k
      · have h₁ : k₀ = k' := h₀.trans hk.symm
        rw [if_pos h₁, if_pos hk, if_pos h₀]
        rfl
      · have h₁ : ¬ k₀ = k' := fun hc => hk (hc.symm.trans h₀)
        rw [if_neg h₁, if_neg hk, if_neg hk, if_neg h₁]
    · rw [if_neg h₀]
      simp only [mapFind_cons, ih]
      by_cases hk : k' = k
      · have h₁ : ¬ k₀ = k' := fun hc => h₀ (hc.trans hk)
        rw [if_neg h₁, if_pos hk, if_pos hk, if_neg h₀]
      · rw [if_neg hk, if_neg hk]

theorem keys_mapPushBack (m : LayerMap) (k c : String) :
    (mapPushBack m k c).map Prod.fst = m.map Prod.fst := by
  induction m with
  | nil => rfl
  | cons e m ih =>
    have ih' : List.map Prod.fst (List.map (fun entry : String × List String =>
        if entry.1 = k then (entry.1, entry.2 ++ [c]) else entry) m) = m.map Prod.fst := ih
    by_cases h : e.1 = k
    · simp only [mapPushBack, List.map_cons, h, if_true, ih']
    · simp only [mapPushBack, List.map_cons, h, if_false, ih']

theorem keysSorted_iff (m : LayerMap) :
    KeysSorted m ↔ List.Pairwise (fun a b : String => strLt a b = true) (m.map Prod.fst) := by
  unfold KeysSorted
  rw [List.pairwise_map]

theorem keysSorted_mapPushBack (m : LayerMap) (k c : String) (h : KeysSorted m) :
    KeysSorted (mapPushBack m k c) := by
  rw [keysSorted_iff, keys_mapPushBack, ← keysSorted_iff]
  exact h

theorem mapFind_mapEmplace (m : LayerMap) (k : String) (v : List String) (k' : String)
    (hnone : mapFind m k = none) :
    mapFind (mapEmplace m k v) k' = if k' = k then some v else mapFind m k' := by
  induction m with
  | nil =>
    by_cases hk : k' = k
    · subst hk; simp [mapEmplace, mapFind]
    · have hk' : ¬ k = k' := fun hc => hk hc.symm
      simp [mapEmplace, mapFind, hk, hk']
  | cons e m ih =>
    obtain ⟨k₀, w⟩ := e
    have h₀ : ¬ k₀ = k := by
      intro hc
      simp [mapFind, hc] at hnone
    have hrest : mapFind m k = none := by
      simpa [mapFind, h₀] using hnone
    by_cases hlt : strLt k k₀ = true
    · by_cases hk : k' = k
      · subst hk; simp [mapEmplace, hlt, mapFind]
      · have hk' : ¬ k = k' := fun hc => hk hc.symm
        simp [mapEmplace, hlt, mapFind, hk, hk']
    · simp only [mapEmplace, hlt, if_false, mapFind, ih hrest]
      by_cases hk₀ : k₀ = k'
      · have hk : ¬ k' = k := by
          intro hc; exact h₀ (hk₀.trans hc)
        simp [hk₀, hk]
      · simp [hk₀]

theorem mapEmplace_cons (k₀ : String) (w : List String) (m : LayerMap) (k : String)
    (v : List String) :
    mapEmplace ((k₀, w) :: m) k v =
      if strLt k k₀ = true then (k, v) :: (k₀, w) :: m else (k₀, w) :: mapEmplace m k v := rfl

theorem mem_mapEmplace (m : LayerMap) (k : String) (v : List String) (e : String × List String)
    (he : e ∈ mapEmplace m k v) : e = (k, v) ∨ e ∈ m := by
  induction m with
  | nil =>
    exact Or.inl (List.mem_singleton.mp he)
  | cons e₀ m ih =>
    obtain ⟨k₀, w⟩ := e₀
    rw [mapEmplace_cons] at he
    by_cases hlt : strLt k k₀ = true
    · rw [if_pos hlt] at he
      rcases List.mem_cons.mp he with h1 | h1
      · exact Or.inl h1
      · exact Or.inr h1
    · rw [if_neg hlt] at he
      rcases List.mem_cons.mp he with h1 | h1
      · exact Or.inr (List.mem_cons.mpr (Or.inl h1))
      · rcases ih h1 with h' | h'
        · exact Or.inl h'
        · exact Or.inr (List.mem_cons_of_mem _ h')

theorem keysSorted_mapEmplace (m : LayerMap) (k : String) (v : List String)
    (hs : KeysSorted m) (hnone : mapFind m k = none) : KeysSorted (mapEmplace m k v) := by
  induction m with
  | nil => exact List.pairwise_singleton _ _
  | cons e m ih =>
    obtain ⟨k₀, w⟩ := e
    have h₀ : ¬ k₀ = k := by
      intro hc
      simp [mapFind, hc] at hnone
    have hrest : mapFind m k = none := by
      simpa [mapFind, h₀] using hnone
    have hs' := List.pairwise_cons.mp hs
    by_cases hlt : strLt k k₀ = true
    · simp only [mapEmplace, hlt, if_true]
      refine List.pairwise_cons.mpr ⟨?_, hs⟩
      intro e he
      rcases List.mem_cons.mp he with h | h
      · rw [h]; exact hlt
      · exact strLt_trans hlt (hs'.1 e h)
    · simp only [mapEmplace, hlt, if_false]
      refine List.pairwise_cons.mpr ⟨?_, ih hs'.2 hrest⟩
      intro e he
      rcases mem_mapEmplace m k v e he with h | h
      · rw [h]
        show strLt k₀ k = true
        by_contra hc
        have hlt' : strLt k k₀ = false := by simpa using hlt
        have hc' : strLt k₀ k = false := by simpa using hc
        exact h₀ (strLt_trichotomy hc' hlt')
      · exact hs'.1 e h

theorem groupStep_some (m : LayerMap) (name : String) (v : List String)
    (h : mapFind m (splitName name).1 = some v) :
    groupStep m name = mapPushBack m (splitName name).1 (splitName name).2 := by
  simp only [groupStep, h]

theorem groupStep_none (m : LayerMap) (name : String)
    (h : mapFind m (splitName name).1 = none) :
    groupStep m name = mapEmplace m (splitName name).1 [(splitName name).2] := by
  simp only [groupStep, h]

theorem mapFind_groupStep (m : LayerMap) (name k : String) :
    mapFind (groupStep m name) k =
      if k = (splitName name).1 then
        some ((mapFind m k).getD [] ++ [(splitName name).2])
      else mapFind m k := by
  cases hf : mapFind m (splitName name).1 with
  | some v =>
    rw [groupStep_some m name v hf, mapFind_mapPushBack]
    by_cases hk : k = (splitName name).1
    · rw [if_pos hk, if_pos hk, hk, hf]
      rfl
    · rw [if_neg hk, if_neg hk]
  | none =>
    rw [groupStep_none m name hf, mapFind_mapEmplace m _ _ k hf]
    by_cases hk : k = (splitName name).1
    · rw [if_pos hk, if_pos hk, hk, hf]
      rfl
    · rw [if_neg hk, if_neg hk]

theorem keysSorted_groupStep (m : LayerMap) (name : String) (hs : KeysSorted m) :
    KeysSorted (groupStep m name) := by
  cases hf : mapFind m (splitName name).1 with
  | some v =>
    rw [groupStep_some m name v hf]
    exact keysSorted_mapPushBack m _ _ hs
  | none =>
    rw [groupStep_none m name hf]
    exact keysSorted_mapEmplace m _ _ hs hf

theorem keysSorted_foldl (names : List String) (m : LayerMap) (hs : KeysSorted m) :
    KeysSorted (names.foldl groupStep m) := by
  induction names generalizing m with
  | nil => exact hs
  | cons n ns ih => exact ih _ (keysSorted_groupStep m n hs)

theorem channelsOf_cons (k n : String) (ns : List String) :
    channelsOf k (n :: ns) =
      if (splitName n).1 = k then (splitName n).2 :: channelsOf k ns else channelsOf k ns := by
  unfold channelsOf
  by_cases h : (splitName n).1 = k
  · simp [List.filter_cons, h]
  · simp [List.filter_cons, h]

theorem mapFind_foldl (names : List String) (m : LayerMap) (k : String) :
    mapFind (names.foldl groupStep m) k =
      match mapFind m k with
      | some v => some (v ++ channelsOf k names)
      | none => if channelsOf k names = [] then none else some (channelsOf k names) := by
  induction names generalizing m with
  | nil =>
    cases h : mapFind m k <;> simp [channelsOf, h]
  | cons n ns ih =>
    rw [List.foldl_cons, ih, mapFind_groupStep, channelsOf_cons]
    by_cases hk : k = (splitName n).1
    · have hk' : (splitName n).1 = k := hk.symm
      cases h : mapFind m k <;> simp [hk, h]
    · have hk' : ¬ (splitName n).1 = k := fun hc => hk hc.symm
      simp only [hk, hk', if_false]

theorem mapFind_groupChannels (names : List String) (k : String) :
    mapFind (groupChannels names) k =
      if channelsOf k names = [] then none else some (channelsOf k names) := by
  unfold groupChannels
  rw [mapFind_foldl]
  rfl

theorem keysSorted_groupChannels (names : List String) : KeysSorted (groupChannels names) :=
  keysSorted_foldl names [] List.Pairwise.nil

theorem mapFind_map_snd (f : List String → List String) (m : LayerMap) (k : String) :
    mapFind (m.map fun entry => (entry.1, f entry.2)) k = (mapFind m k).map f := by
  induction m with
  | nil => rfl
  | cons e m ih =>
    by_cases h : e.1 = k
    · simp [mapFind, h]
    · simp only [List.map_cons, mapFind, h, if_false, ih]

theorem keysSorted_map_snd (f : List String → List String) (m : LayerMap)
    (hs : KeysSorted m) : KeysSorted (m.map fun entry => (entry.1, f entry.2)) := by
  unfold KeysSorted at hs ⊢
  rw [List.pairwise_map]
  exact hs

/-! ## Layer reconstruction: channel ordering and name splitting -/

theorem foldl_sortStep (ord : List String) (hord : ord.Nodup) (g : List String)
    (hg : g.Nodup) (acc : List String) :
    ord.foldl sortStep (g, acc) =
      (g.filter (fun c => decide (c ∉ ord)), acc ++ ord.filter (fun o => decide (o ∈ g))) := by
  induction ord generalizing g acc with
  | nil => simp
  | cons o ord ih =>
    have ho : o ∉ ord := (List.nodup_cons.mp hord).1
    have hord' : ord.Nodup := (List.nodup_cons.mp hord).2
    rw [List.foldl_cons]
    by_cases hmem : o ∈ g
    · have hstep : sortStep (g, acc) o = (g.erase o, acc ++ [o]) := by
        simp only [sortStep, hmem, if_true]
      rw [hstep, ih hord' (g.erase o) (hg.erase o) (acc ++ [o])]
      have h1 : (g.erase o).filter (fun c => decide (c ∉ ord)) =
          g.filter (fun c => decide (c ∉ o :: ord)) := by
        rw [hg.erase_eq_filter o, List.filter_filter]
        apply List.filter_congr
        intro x _
        by_cases hx : x = o
        · subst hx
          simp
        · simp [hx]
      have h2 : ord.filter (fun x => decide (x ∈ g.erase o)) =
          ord.filter (fun x => decide (x ∈ g)) := by
        apply List.filter_congr
        intro x hx
        have hne : x ≠ o := fun hc => ho (hc ▸ hx)
        simp [List.mem_erase_of_ne hne]
      have h3 : (o :: ord).filter (fun x => decide (x ∈ g)) =
          o :: ord.filter (fun x => decide (x ∈ g)) := by
        simp [List.filter_cons, hmem]
      rw [h1, h2, h3]
      simp
    · have hstep : sortStep (g, acc) o = (g, acc) := by
        simp only [sortStep, hmem, if_false]
      rw [hstep, ih hord' g hg acc]
      have h1 : g.filter (fun c => decide (c ∉ ord)) =
          g.filter (fun c => decide (c ∉ o :: ord)) := by
        apply List.filter_congr
        intro x hx
        have hne : x ≠ o := fun hc => hmem (hc ▸ hx)
        simp [hne]
      have h3 : (o :: ord).filter (fun x => decide (x ∈ g)) =
          ord.filter (fun x => decide (x ∈ g)) := by
        simp [List.filter_cons, hmem]
      rw [h1, h3]

/-- For pairwise distinct channels, the new channel vector is the recognized names in
the order of `channelOrder`, then the others in discovery order. -/
theorem sortChannels_eq (g : List String) (hg : g.Nodup) :
    sortChannels g = channelOrder.filter (fun o => decide (o ∈ g)) ++
      g.filter (fun c => decide (c ∉ channelOrder)) := by
  unfold sortChannels
  rw [foldl_sortStep channelOrder (by decide) g hg []]
  simp

theorem sortChannels_perm (g g' : List String) (hg : g.Nodup)
    (hc : ∀ c ∈ g, c ∈ channelOrder) (hp : g.Perm g') :
    sortChannels g' = sortChannels g := by
  have hg' : g'.Nodup := hp.nodup_iff.mp hg
  have hnil : g.filter (fun c => decide (c ∉ channelOrder)) = [] := by
    rw [List.filter_eq_nil_iff]
    intro a ha
    simp [hc a ha]
  have hnil' : g'.filter (fun c => decide (c ∉ channelOrder)) = [] := by
    rw [List.filter_eq_nil_iff]
    intro a ha
    simp [hc a (hp.mem_iff.mpr ha)]
  rw [sortChannels_eq g hg, sortChannels_eq g' hg', hnil, hnil']
  congr 1
  apply List.filter_congr
  intro x _
  simp [hp.mem_iff]

theorem splitName_append (name : String) :
    (splitName name).1 ++ (splitName name).2 = name := by
  unfold splitName
  cases find_last_of name.toList '.' with
  | none => simp
  | some pos =>
    apply String.ext
    simp [String.toList]

theorem channelsOf_nodup (k : String) (names : List String) (h : names.Nodup) :
    (channelsOf k names).Nodup := by
  unfold channelsOf
  apply List.Nodup.map_on _ (h.filter _)
  intro x hx y hy hxy
  have hx1 : (splitName x).1 = k := by simpa using (List.mem_filter.mp hx).2
  have hy1 : (splitName y).1 = k := by simpa using (List.mem_filter.mp hy).2
  rw [← splitName_append x, ← splitName_append y, hx1, hy1, hxy]

theorem channelsOf_perm (k : String) (names names' : List String) (h : names.Perm names') :
    (channelsOf k names).Perm (channelsOf k names') :=
  (h.filter _).map _

theorem channelsOf_canonical (k : String) (names : List String)
    (hc : ∀ n ∈ names, (splitName n).2 ∈ channelOrder) :
    ∀ c ∈ channelsOf k names, c ∈ channelOrder := by
  intro c hcm
  unfold channelsOf at hcm
  obtain ⟨n, hn, rfl⟩ := List.mem_map.mp hcm
  exact hc n (List.mem_filter.mp hn).1

theorem mapFind_reconstructLayers (names : List String) (k : String) :
    mapFind (reconstructLayers names) k =
      if channelsOf k names = [] then none else some (sortChannels (channelsOf k names)) := by
  unfold reconstructLayers
  rw [mapFind_map_snd, mapFind_groupChannels]
  by_cases h : channelsOf k names = []
  · rw [if_pos h, if_pos h]; rfl
  · rw [if_neg h, if_neg h]; rfl

theorem keysSorted_reconstructLayers (names : List String) :
    KeysSorted (reconstructLayers names) :=
  keysSorted_map_snd _ _ (keysSorted_groupChannels names)

/-- The reconstructed layers of pairwise distinct names with recognized bare names do
not depend on the order of the names. -/
theorem reconstructLayers_perm_aux (names names' : List String) (hd : names.Nodup)
    (hc : ∀ n ∈ names, (splitName n).2 ∈ channelOrder) (hp : names.Perm names') :
    reconstructLayers names' = reconstructLayers names := by
  apply LayerMap_ext _ _ (keysSorted_reconstructLayers names')
    (keysSorted_reconstructLayers names)
  intro k
  rw [mapFind_reconstructLayers, mapFind_reconstructLayers]
  have hpk := channelsOf_perm k names names' hp
  have hs := sortChannels_perm _ _ (channelsOf_nodup k names hd)
    (channelsOf_canonical k names hc) hpk
  by_cases h : channelsOf k names = []
  · have h' : channelsOf k names' = [] := by
      rw [h] at hpk
      exact List.Perm.eq_nil hpk.symm
    rw [if_pos h, if_pos h']
  · have h' : ¬ channelsOf k names' = [] := by
      intro hc'
      rw [hc'] at hpk
      exact h (List.Perm.eq_nil hpk)
    rw [if_neg h, if_neg h', hs]

/-- C10: for pairwise distinct channel names whose bare names all belong to
`channelOrder`, the reconstructed layers (their number, order, layer-name keys and
ordered channel lists) are the same for every permutation of the input; and for every
ordering of R, G, B, diffuse.R, diffuse.G, diffuse.B, depth.Z the result is exactly the
three layers "" with [R, G, B], "depth." with [Z] and "diffuse." with [R, G, B]. -/
theorem reconstructLayers_perm (names names' : List String) (hd : names.Nodup)
    (hc : ∀ n ∈ names, (splitName n).2 ∈ channelOrder) (hp : names.Perm names') :
    reconstructLayers names' = reconstructLayers names ∧
    (∀ w h : Int, layerData w h names' = layerData w h names) ∧
    (names = ["R", "G", "B", "diffuse.R", "diffuse.G", "diffuse.B", "depth.Z"] →
      reconstructLayers names' =
        [("", ["R", "G", "B"]), ("depth.", ["Z"]), ("diffuse.", ["R", "G", "B"])] ∧
      (reconstructLayers names').length = 3) := by
  have h := reconstructLayers_perm_aux names names' hd hc hp
  refine ⟨h, fun w h' => by unfold layerData; rw [h], ?_⟩
  intro hn
  rw [h, hn]
  exact ⟨by decide, by decide⟩

/-- Witness for C10: the seven names of the example in another order. -/
theorem reconstructLayers_perm_witness :
    reconstructLayers ["depth.Z", "B", "diffuse.G", "G", "diffuse.R", "diffuse.B", "R"] =
      reconstructLayers ["R", "G", "B", "diffuse.R", "diffuse.G", "diffuse.B", "depth.Z"] ∧
    (∀ w h : Int,
      layerData w h ["depth.Z", "B", "diffuse.G", "G", "diffuse.R", "diffuse.B", "R"] =
        layerData w h ["R", "G", "B", "diffuse.R", "diffuse.G", "diffuse.B", "depth.Z"]) ∧
    (["R", "G", "B", "diffuse.R", "diffuse.G", "diffuse.B", "depth.Z"] =
        ["R", "G", "B", "diffuse.R", "diffuse.G", "diffuse.B", "depth.Z"] →
      reconstructLayers ["depth.Z", "B", "diffuse.G", "G", "diffuse.R", "diffuse.B", "R"] =
        [("", ["R", "G", "B"]), ("depth.", ["Z"]), ("diffuse.", ["R", "G", "B"])] ∧
      (reconstructLayers
        ["depth.Z", "B", "diffuse.G", "G", "diffuse.R", "diffuse.B", "R"]).length = 3) :=
  reconstructLayers_perm
    ["R", "G", "B", "diffuse.R", "diffuse.G", "diffuse.B", "depth.Z"]
    ["depth.Z", "B", "diffuse.G", "G", "diffuse.R", "diffuse.B", "R"]
    (by decide) (by decide) (by decide)

/-! ## Layer reconstruction: order of the layers, channel order, name split -/

theorem mapFind_isSome_iff (m : LayerMap) (k : String) :
    (mapFind m k).isSome = true ↔ k ∈ m.map Prod.fst := by
  induction m with
  | nil => simp [mapFind]
  | cons e m ih =>
    obtain ⟨k₀, v₀⟩ := e
    rw [mapFind_cons]
    by_cases h : k₀ = k
    · rw [if_pos h]
      simp [h]
    · rw [if_neg h, ih]
      have h' : ¬ k = k₀ := fun hc => h hc.symm
      simp [h']

theorem channelsOf_ne_nil_iff (k : String) (names : List String) :
    channelsOf k names ≠ [] ↔ ∃ n ∈ names, (splitName n).1 = k := by
  unfold channelsOf
  rw [Ne, List.map_eq_nil_iff, List.filter_eq_nil_iff]
  push_neg
  constructor
  · rintro ⟨n, hn, hk⟩
    exact ⟨n, hn, by simpa using hk⟩
  · rintro ⟨n, hn, hk⟩
    exact ⟨n, hn, by simpa using hk⟩

theorem mem_keys_reconstructLayers (names : List String) (k : String) :
    k ∈ (reconstructLayers names).map Prod.fst ↔ ∃ n ∈ names, (splitName n).1 = k := by
  rw [← mapFind_isSome_iff, mapFind_reconstructLayers, ← channelsOf_ne_nil_iff]
  by_cases h : channelsOf k names = []
  · simp [h]
  · simp [h]

theorem keys_nodup_of_sorted (m : LayerMap) (h : KeysSorted m) : (m.map Prod.fst).Nodup := by
  rw [keysSorted_iff] at h
  refine List.Pairwise.imp ?_ h
  intro a b hab hc
  rw [hc, strLt_irrefl] at hab
  exact Bool.false_ne_true hab

/-- C11 (amended): the reconstructed layers appear in strictly ascending order of their
layer-name keys (the iteration order of the map), whatever the order of the input; the
keys are exactly the layer-name parts that occur in the input, each yields exactly one
layer, and `layerData` holds one layer per key in that same order. -/
theorem reconstructLayers_key_order (names : List String) :
    KeysSorted (reconstructLayers names) ∧
    ((reconstructLayers names).map Prod.fst).Nodup ∧
    (∀ k, k ∈ (reconstructLayers names).map Prod.fst ↔ ∃ n ∈ names, (splitName n).1 = k) ∧
    (∀ k, (∃ n ∈ names, (splitName n).1 = k) →
      ((reconstructLayers names).map Prod.fst).count k = 1) ∧
    (∀ w h : Int, (layerData w h names).map (fun l => l.channels) =
      (reconstructLayers names).map Prod.snd) := by
  refine ⟨keysSorted_reconstructLayers names,
    keys_nodup_of_sorted _ (keysSorted_reconstructLayers names),
    mem_keys_reconstructLayers names, ?_, ?_⟩
  · intro k hk
    exact List.count_eq_one_of_mem (keys_nodup_of_sorted _ (keysSorted_reconstructLayers names))
      ((mem_keys_reconstructLayers names k).mpr hk)
  · intro w h
    unfold layerData
    rw [List.map_map]
    rfl

/-- C11 (counterexample): for the input b.R, a.R the layer-name parts first occur in the
order "b.", "a.", but the reconstructed layers come out in the order "a.", "b.". -/
theorem reconstructLayers_first_seen_counterexample :
    reconstructLayers ["b.R", "a.R"] = [("a.", ["R"]), ("b.", ["R"])] ∧
    ["b.R", "a.R"].map (fun n => (splitName n).1) = ["b.", "a."] ∧
    (reconstructLayers ["b.R", "a.R"]).map Prod.fst ≠
      ["b.R", "a.R"].map (fun n => (splitName n).1) := by
  decide

/-- C12: for pairwise distinct bare channel names, the new channel vector is the names
of the group that occur in `channelOrder`, in the order of `channelOrder`, followed by
the remaining names in discovery order; it is a permutation of the group. -/
theorem sortChannels_spec (g : List String) (hg : g.Nodup) :
    sortChannels g = channelOrder.filter (fun o => decide (o ∈ g)) ++
      g.filter (fun c => decide (c ∉ channelOrder)) ∧
    (channelOrder.filter (fun o => decide (o ∈ g))).Sublist channelOrder ∧
    (g.filter (fun c => decide (c ∉ channelOrder))).Sublist g ∧
    (sortChannels g).Perm g ∧ (sortChannels g).Nodup := by
  have heq := sortChannels_eq g hg
  have h1 : (channelOrder.filter (fun o => decide (o ∈ g))).Perm
      (g.filter (fun c => decide (c ∈ channelOrder))) := by
    rw [List.perm_ext_iff_of_nodup ((by decide : channelOrder.Nodup).filter _) (hg.filter _)]
    intro a
    simp only [List.mem_filter, decide_eq_true_eq]
    exact ⟨fun h => ⟨h.2, h.1⟩, fun h => ⟨h.2, h.1⟩⟩
  have h2 : (g.filter (fun c => decide (c ∈ channelOrder)) ++
      g.filter (fun c => !decide (c ∈ channelOrder))).Perm g :=
    List.filter_append_perm (fun c => decide (c ∈ channelOrder)) g
  have h3 : g.filter (fun c => !decide (c ∈ channelOrder)) =
      g.filter (fun c => decide (c ∉ channelOrder)) := by
    apply List.filter_congr
    intro x _
    simp
  have h2' : (g.filter (fun c => decide (c ∈ channelOrder)) ++
      g.filter (fun c => decide (c ∉ channelOrder))).Perm g := by
    rw [← h3]
    exact h2
  have hperm : (sortChannels g).Perm g := by
    rw [heq]
    exact List.Perm.trans (List.Perm.append_right _ h1) h2'
  exact ⟨heq, List.filter_sublist _, List.filter_sublist _, hperm, hperm.nodup_iff.mpr hg⟩

/-- Witness for C12: a group with two unrecognized names. -/
theorem sortChannels_spec_witness :
    sortChannels ["B", "zeta", "R", "alpha", "Z"] =
      channelOrder.filter (fun o => decide (o ∈ ["B", "zeta", "R", "alpha", "Z"])) ++
      ["B", "zeta", "R", "alpha", "Z"].filter (fun c => decide (c ∉ channelOrder)) ∧
    (channelOrder.filter (fun o => decide (o ∈ ["B", "zeta", "R", "alpha", "Z"]))).Sublist
      channelOrder ∧
    (["B", "zeta", "R", "alpha", "Z"].filter (fun c => decide (c ∉ channelOrder))).Sublist
      ["B", "zeta", "R", "alpha", "Z"] ∧
    (sortChannels ["B", "zeta", "R", "alpha", "Z"]).Perm ["B", "zeta", "R", "alpha", "Z"] ∧
    (sortChannels ["B", "zeta", "R", "alpha", "Z"]).Nodup :=
  sortChannels_spec ["B", "zeta", "R", "alpha", "Z"] (by decide)

theorem find_last_of_eq_none (l : List Char) (c : Char) :
    find_last_of l c = none ↔ c ∉ l := by
  induction l with
  | nil => simp [find_last_of]
  | cons a as ih =>
    simp only [find_last_of]
    cases h : find_last_of as c with
    | some pos =>
      have : c ∈ as := by
        by_contra hc
        rw [ih.mpr hc] at h
        exact Option.noConfusion h
      simp [this]
    | none =>
      have hn : c ∉ as := ih.mp h
      by_cases hac : a = c
      · simp [hac]
      · have hca : ¬ c = a := fun hc => hac hc.symm
        simp [hac, hn, hca]

theorem find_last_of_eq_some (l : List Char) (c : Char) (pos : Nat)
    (h : find_last_of l c = some pos) :
    l.take (pos + 1) = l.take pos ++ [c] ∧ c ∉ l.drop (pos + 1) := by
  induction l generalizing pos with
  | nil => simp [find_last_of] at h
  | cons a as ih =>
    simp only [find_last_of] at h
    cases h' : find_last_of as c with
    | some p =>
      rw [h'] at h
      simp only [Option.some.injEq] at h
      subst h
      obtain ⟨h1, h2⟩ := ih p h'
      refine ⟨?_, by simpa using h2⟩
      simp only [List.take_succ_cons, h1, List.cons_append]
    | none =>
      rw [h'] at h
      by_cases hac : a = c
      · simp only [hac, if_true, Option.some.injEq] at h
        subst h
        subst hac
        refine ⟨by simp, ?_⟩
        simpa using (find_last_of_eq_none as a).mp h'
      · simp [hac] at h

/-- C13: a channel name without '.' splits into the empty layer-name part and the whole
name; a name with a '.' splits at its last '.', the layer-name part being everything up
to and including that '.', the bare channel name the remainder. In both cases the two
parts concatenate to the name and the bare channel name contains no '.'. -/
theorem splitName_spec (name : String) :
    ('.' ∉ name.toList → splitName name = ("", name)) ∧
    ('.' ∈ name.toList → ∃ front rest : List Char,
      name.toList = front ++ '.' :: rest ∧ '.' ∉ rest ∧
      splitName name = (String.mk (front ++ ['.']), String.mk rest)) ∧
    (splitName name).1 ++ (splitName name).2 = name ∧
    '.' ∉ (splitName name).2.toList := by
  refine ⟨?_, ?_, splitName_append name, ?_⟩
  · intro h
    unfold splitName
    rw [(find_last_of_eq_none _ _).mpr h]
  · intro h
    cases hf : find_last_of name.toList '.' with
    | none => exact absurd ((find_last_of_eq_none _ _).mp hf) (by simpa using h)
    | some pos =>
      obtain ⟨h1, h2⟩ := find_last_of_eq_some _ _ _ hf
      refine ⟨name.toList.take pos, name.toList.drop (pos + 1), ?_, h2, ?_⟩
      · have := List.take_append_drop (pos + 1) name.toList
        rw [h1, List.append_assoc] at this
        exact this.symm
      · unfold splitName
        rw [hf]
        simp only [h1]
  · unfold splitName
    cases hf : find_last_of name.toList '.' with
    | none => exact (find_last_of_eq_none _ _).mp hf
    | some pos => exact (find_last_of_eq_some _ _ _ hf).2


theorem splitName_of_no_dot (name : String) (h : '.' ∉ name.toList) :
    splitName name = ("", name) := by
  unfold splitName
  rw [(find_last_of_eq_none _ _).mpr h]

theorem channelsOf_no_dot (names : List String) (h : ∀ n ∈ names, '.' ∉ n.toList)
    (k : String) :
    channelsOf k names = if k = "" then names else [] := by
  induction names with
  | nil => simp [channelsOf]
  | cons n ns ih =>
    have hn := splitName_of_no_dot n (h n (List.mem_cons_self _ _))
    have ih' := ih (fun m hm => h m (List.mem_cons_of_mem _ hm))
    rw [channelsOf_cons, hn, ih']
    by_cases hk : k = ""
    · subst hk; simp
    · have hk' : ¬ "" = k := fun hc => hk hc.symm
      simp [hk, hk']

theorem reconstructLayers_no_dot (names : List String) (hne : names ≠ [])
    (h : ∀ n ∈ names, '.' ∉ n.toList) :
    reconstructLayers names = [("", sortChannels names)] := by
  apply LayerMap_ext _ _ (keysSorted_reconstructLayers names) (List.pairwise_singleton _ _)
  intro k
  rw [mapFind_reconstructLayers, channelsOf_no_dot names h, mapFind_cons]
  by_cases hk : k = ""
  · subst hk
    simp [hne]
  · have hk' : ¬ "" = k := fun hc => hk hc.symm
    simp [hk, hk', mapFind]

/-- C14 (amended): for a non-empty list of channel names none of which contains a '.',
the reconstruction produces exactly one layer; its layer-name key is the empty string,
its channels are the ordered names, and its name field, as `layerName(0)` of the loaded
image returns it, is the concatenation of the ordered channel names. -/
theorem loadEXR_unprefixed_layer (w h : Int) (names : List String)
    (fill : Layer → List Nat) (hne : names ≠ [])
    (hdot : ∀ n ∈ names, '.' ∉ n.toList) :
    reconstructLayers names = [("", sortChannels names)] ∧
    (loadEXRImage w h names fill).layerCount = 1 ∧
    (loadEXRImage w h names fill).layerName 0 =
      Except.ok ("" ++ accumulate (sortChannels names)) ∧
    (∃ l, (loadEXRImage w h names fill).layerAt 0 = Except.ok l ∧
      l.channels = sortChannels names ∧ l.format = Format.Float) := by
  have hr := reconstructLayers_no_dot names hne hdot
  refine ⟨hr, ?_, ?_, ?_⟩
  · simp [loadEXRImage, Image.layerCount, layerData, hr]
  · simp [loadEXRImage, Image.layerName, Image.layerAt, layerData, hr, bind, Except.bind,
      pure, Except.pure]
  · simp [loadEXRImage, Image.layerAt, layerData, hr]

/-- Witness for C14: the names B, G, R give one layer named "RGB". -/
theorem loadEXR_unprefixed_layer_witness :
    reconstructLayers ["B", "G", "R"] = [("", sortChannels ["B", "G", "R"])] ∧
    (loadEXRImage 2 2 ["B", "G", "R"] (fun l => l.data)).layerCount = 1 ∧
    (loadEXRImage 2 2 ["B", "G", "R"] (fun l => l.data)).layerName 0 =
      Except.ok ("" ++ accumulate (sortChannels ["B", "G", "R"])) ∧
    (∃ l, (loadEXRImage 2 2 ["B", "G", "R"] (fun l => l.data)).layerAt 0 = Except.ok l ∧
      l.channels = sortChannels ["B", "G", "R"] ∧ l.format = Format.Float) :=
  loadEXR_unprefixed_layer 2 2 ["B", "G", "R"] (fun l => l.data) (by decide) (by decide)

/-- C14 (counterexample): for the names R, G, B, none of which contains a '.', the single
layer of the loaded image is named "RGB", not the empty string. -/
theorem loadEXR_layer_name_counterexample :
    (loadEXRImage 2 2 ["R", "G", "B"] (fun l => l.data)).layerCount = 1 ∧
    (loadEXRImage 2 2 ["R", "G", "B"] (fun l => l.data)).layerName 0 = Except.ok "RGB" ∧
    "RGB" ≠ "" := by
  refine ⟨by decide, ?_, by decide⟩
  rfl

/-! ## Empty image -/

/-- C15 (amended): `makeEmpty()` returns the canonical empty image, width 0 and height
0, with one Byte layer of one channel whose buffer holds a single zero byte, while
`sizeInBytes(0)` is 0: the buffer is one byte longer than `sizeInBytes(0)`. -/
theorem makeEmpty_shape :
    Image.makeEmpty.width = 0 ∧ Image.makeEmpty.height = 0 ∧
    Image.makeEmpty.layerCount = 1 ∧
    Image.makeEmpty.channels 0 = Except.ok 1 ∧
    Image.makeEmpty.format 0 = Except.ok Format.Byte ∧
    Image.makeEmpty.pixelSizeInBytes 0 = Except.ok 1 ∧
    Image.makeEmpty.sizeInBytes 0 = Except.ok 0 ∧
    (∃ l, Image.makeEmpty.layerAt 0 = Except.ok l ∧ l.data = [0] ∧ l.data.length = 1) :=
  ⟨rfl, rfl, rfl, rfl, rfl, rfl, rfl, _, rfl, rfl, rfl⟩

/-- C15 (counterexample): the image `makeEmpty()` returns does not satisfy the
buffer-size invariant: `sizeInBytes(0)` is 0 and the buffer of layer 0 has length 1. -/
theorem makeEmpty_invariant_counterexample :
    Image.makeEmpty.sizeInBytes 0 = Except.ok 0 ∧
    (∃ l, Image.makeEmpty.layerAt 0 = Except.ok l ∧ (l.data.length : Int) = 1) ∧
    ¬ Image.makeEmpty.BufferInvariant := by
  refine ⟨rfl, ⟨_, rfl, rfl⟩, ?_⟩
  intro h
  have := h _ (List.mem_singleton_self _)
  revert this
  decide

/-! ## Radiance adapter: rejected inputs -/

/-- C16: for an input whose information header declares a variant other than 32-bit
run-length-encoded RGBE, `loadPIC` returns Err, constructs no image, and has read only
the information header; for an input of the supported variant whose resolution string
declares an orientation other than negative-Y positive-X, `loadPIC` returns Err,
constructs no image, and has read the two headers and no scanline. -/
theorem loadPIC_rejects (fc : FloatCodec) (rc : RgbeCodec) (file : PicInput)
    (h : file.format ≠ PicFormat._32_bit_rle_rgbe ∨
      file.resolutionType ≠ PicResolution.neg_y_pos_x) :
    (loadPIC fc rc file).toBool = false ∧
    (loadPIC fc rc file).value_ = none ∧
    PicRead.read_scanline ∉ (loadPICTrace fc rc file).2 ∧
    (file.format ≠ PicFormat._32_bit_rle_rgbe →
      loadPICTrace fc rc file =
        (Result.err "Radiance PIC loader: format not supported.",
          [PicRead.read_information_header])) ∧
    (file.format = PicFormat._32_bit_rle_rgbe →
      loadPICTrace fc rc file =
        (Result.err "Radiance PIC loader: resolution type not supported.",
          [PicRead.read_information_header, PicRead.read_resolution_string])) := by
  by_cases hf : file.format = PicFormat._32_bit_rle_rgbe
  · have hr : file.resolutionType ≠ PicResolution.neg_y_pos_x := by
      rcases h with h | h
      · exact absurd hf h
      · exact h
    have ht : loadPICTrace fc rc file =
        (Result.err "Radiance PIC loader: resolution type not supported.",
          [PicRead.read_information_header, PicRead.read_resolution_string]) := by
      simp only [loadPICTrace, hf, ne_eq, not_true_eq_false, if_false, hr, not_false_eq_true,
        if_true]
    refine ⟨?_, ?_, ?_, fun hc => absurd hf hc, fun _ => ht⟩
    · simp only [loadPIC, ht]; rfl
    · simp only [loadPIC, ht]; rfl
    · rw [ht]; decide
  · have ht : loadPICTrace fc rc file =
        (Result.err "Radiance PIC loader: format not supported.",
          [PicRead.read_information_header]) := by
      simp only [loadPICTrace, hf, ne_eq, not_false_eq_true, if_true]
    refine ⟨?_, ?_, ?_, fun _ => ht, fun hc => absurd hc hf⟩
    · simp only [loadPIC, ht]; rfl
    · simp only [loadPIC, ht]; rfl
    · rw [ht]; decide

/-- Witness for C16: a 2x2 input that declares the XYZE variant. -/
theorem loadPIC_rejects_witness :
    (loadPIC ratCodec trivialRgbe picXyze).toBool = false ∧
    (loadPIC ratCodec trivialRgbe picXyze).value_ = none ∧
    PicRead.read_scanline ∉ (loadPICTrace ratCodec trivialRgbe picXyze).2 ∧
    (picXyze.format ≠ PicFormat._32_bit_rle_rgbe →
      loadPICTrace ratCodec trivialRgbe picXyze =
        (Result.err "Radiance PIC loader: format not supported.",
          [PicRead.read_information_header])) ∧
    (picXyze.format = PicFormat._32_bit_rle_rgbe →
      loadPICTrace ratCodec trivialRgbe picXyze =
        (Result.err "Radiance PIC loader: resolution type not supported.",
          [PicRead.read_information_header, PicRead.read_resolution_string])) :=
  loadPIC_rejects ratCodec trivialRgbe picXyze (Or.inl (by decide))

/-! ## LDR adapter -/

theorem length_copyBytes (src : List Nat) (n : Nat) (dst : List Nat) (h : dst.length = n) :
    (copyBytes src n dst).length = n := by
  simp only [copyBytes, List.length_append, List.length_take, List.length_drop, h]
  omega

/-- C17: for every successfully decoded LDR source, `loadImage` returns Ok with an image
of the source's width and height that has one Byte layer with 3 channels when the
source has no alpha and 4 when it has, and whose buffer length is
`width * height * channels(0)`. -/
theorem loadImage_shape (src : LdrSource) :
    ∃ (img : Image) (l : Layer), loadImage (some src) = Result.ok img ∧
      img.width = src.width ∧ img.height = src.height ∧
      img.layers = [l] ∧ l.format = Format.Byte ∧
      img.channels 0 = Except.ok (if src.hasAlphaChannel then 4 else 3) ∧
      (src.hasAlphaChannel = false → img.channels 0 = Except.ok 3) ∧
      (src.hasAlphaChannel = true → img.channels 0 = Except.ok 4) ∧
      l.data.length = src.width * src.height * l.channels.length ∧
      img.sizeInBytes 0 = Except.ok (l.data.length : Int) ∧
      img.BufferInvariant := by
  have hc : ∀ b : Bool, ((if b then (4 : Int) else 3).toNat) = if b then 4 else 3 := by
    intro b; cases b <;> rfl
  have hlen : (copyBytes src.bits
      ((src.width : Int) * (src.height : Int) * (if src.hasAlphaChannel then 4 else 3)).toNat
      (List.replicate ((src.width : Int) * (src.height : Int) *
        (if src.hasAlphaChannel then 4 else 3)).toNat 0)).length =
      src.width * src.height * (if src.hasAlphaChannel then 4 else 3) := by
    rw [length_copyBytes _ _ _ (List.length_replicate _ _)]
    cases src.hasAlphaChannel
    · have : ((src.width : Int) * (src.height : Int) * 3) =
          ((src.width * src.height * 3 : Nat) : Int) := by push_cast; ring
      simp only [Bool.false_eq_true, if_false, this, Int.toNat_ofNat]
    · have : ((src.width : Int) * (src.height : Int) * 4) =
          ((src.width * src.height * 4 : Nat) : Int) := by push_cast; ring
      simp only [if_true, this, Int.toNat_ofNat]
  have hch : (resize ["R", "G", "B", "A"]
      ((if src.hasAlphaChannel then (4 : Int) else 3).toNat) "").length =
      if src.hasAlphaChannel then 4 else 3 := by
    rw [length_resize, hc]
  refine ⟨_, _, rfl, rfl, rfl, rfl, rfl, ?_, ?_, ?_, ?_, ?_, ?_⟩
  · simp only [Image.channels, layerAt_mk1, bind, Except.bind, pure, Except.pure, hch]
    cases src.hasAlphaChannel <;> rfl
  · intro hb
    simp only [Image.channels, layerAt_mk1, bind, Except.bind, pure, Except.pure, hch, hb]
    rfl
  · intro hb
    simp only [Image.channels, layerAt_mk1, bind, Except.bind, pure, Except.pure, hch, hb]
    rfl
  · show (copyBytes _ _ _).length = _
    rw [hlen, hch]
  · simp only [Image.sizeInBytes, layerAt_mk1, bind, Except.bind, pure, Except.pure]
    congr 1
    show _ = (((copyBytes _ _ _).length : Nat) : Int)
    rw [hlen, hch]
    simp only [Layer.pixelSize, if_true, Image.mk1]
    cases src.hasAlphaChannel <;> push_cast <;> ring
  · intro l hl
    simp only [Image.mk1, List.mem_singleton] at hl
    subst hl
    show (((copyBytes _ _ _).length : Nat) : Int) = _
    rw [hlen]
    simp only [hch, Layer.pixelSize, if_true, Image.mk1]
    cases src.hasAlphaChannel <;> push_cast <;> ring

/-! ## OpenEXR load adapter: frame-buffer slices -/

theorem mem_scaleCoords {img : Image} {l : Layer} {nw nh : Int} {p : Int × Int} :
    p ∈ img.scaleCoords l nw nh ↔
      ∃ x : Nat, x < nw.toNat ∧ ∃ y : Nat, y < nh.toNat ∧ ∃ c : Nat, c < l.channels.length ∧
        ∃ xo : Int, (xo = 0 ∨ xo = 1) ∧ ∃ yo : Int, (yo = 0 ∨ yo = 1) ∧
          p = (min ((x : Int) * 2 + xo) (img.width - 1),
            max (img.height - (y : Int) * 2 - yo - 1) 0) := by
  simp only [Image.scaleCoords, List.mem_flatMap, List.mem_map, List.mem_range, List.mem_cons,
    List.mem_singleton, List.not_mem_nil, or_false, eq_comm]

/-- With positive width and height, every coordinate `scaleByHalf` passes to `value`
is inside the image. -/
theorem scaleByHalfReads_in_range (img : Image) (hw : 1 ≤ img.width) (hh : 1 ≤ img.height)
    (p : Int × Int) (hp : p ∈ img.scaleByHalfReads) :
    0 ≤ p.1 ∧ p.1 < img.width ∧ 0 ≤ p.2 ∧ p.2 < img.height := by
  unfold Image.scaleByHalfReads at hp
  split at hp
  · exact absurd hp (List.not_mem_nil _)
  · split at hp
    · split at hp
      · obtain ⟨x, _, y, hy, c, _, xo, hxo, yo, hyo, rfl⟩ := mem_scaleCoords.mp hp
        rw [Int.tdiv_eq_ediv (by omega) (by norm_num)] at hy
        refine ⟨?_, ?_, ?_, ?_⟩ <;> simp only <;> omega
      · exact absurd hp (List.not_mem_nil _)
    · exact absurd hp (List.not_mem_nil _)

/-- C19 (the code at the failing input): the 0x2 image with one Float channel and an
empty buffer satisfies the data-model invariants, has a Float first layer and is not at
most 1x1, yet `scaleByHalf` passes the coordinate `(-1, 1)` to `value`, whose sample index
there is -1: a read before the start of the buffer. -/
theorem scaleByHalf_reads_outside :
    0 ≤ image0x2.width ∧ 0 ≤ image0x2.height ∧ image0x2.BufferInvariant ∧
    image0x2.format 0 = Except.ok Format.Float ∧
    ¬ (image0x2.width ≤ 1 ∧ image0x2.height ≤ 1) ∧
    image0x2.scaleByHalfReads = [(-1, 1), (-1, 0), (-1, 1), (-1, 0)] ∧
    ((-1 : Int), (1 : Int)) ∈ image0x2.scaleByHalfReads ∧
    ¬ (0 ≤ (-1 : Int) ∧ (-1 : Int) < image0x2.width) ∧
    (∃ l, image0x2.layerAt 0 = Except.ok l ∧ image0x2.sampleIndex l (-1) 1 0 = -1) := by
  refine ⟨by decide, by decide, ?_, rfl, by decide, by decide, by decide, by decide,
    ⟨_, rfl, by decide⟩⟩
  intro l hl
  simp only [image0x2, Image.mk1, List.mem_singleton] at hl
  subst hl
  decide

theorem length_scaleLoops (fc : FloatCodec) (img : Image) (l : Layer) (nw nh : Int)
    (data : List Nat) (hlen : data.length = nh.toNat * nw.toNat * l.channels.length * 4) :
    (Image.scaleLoops fc img l nw nh data).length = data.length := by
  rw [scaleLoops_eq_applyWrites]
  apply length_applyWrites
  intro w hw
  obtain ⟨x', hx', y', hy', c', hc', rfl⟩ := mem_scaleWrites.mp hw
  have h1 : (y' * nw.toNat + x') * l.channels.length + c' <
      nh.toNat * nw.toNat * l.channels.length := index_lt (index_lt hy' hx') hc'
  show Image.outputOffset l nw x' y' c' * 4 + 4 ≤ data.length
  rw [hlen, outputOffset_eq]
  omega

/-- The image a successful `scaleByHalf` returns: its single layer has the buffer length
its dimensions call for, and its channel names are the first names of R, G, B, A, padded
with empty names. -/
theorem scaleByHalf_result (fc : FloatCodec) (img : Image) (r : Image)
    (h : img.scaleByHalf fc = Except.ok (Result.ok r)) :
    r.BufferInvariant ∧
    ∃ l l', img.layerAt 0 = Except.ok l ∧ r.layers = [l'] ∧
      l'.channels = resize ["R", "G", "B", "A"] l.channels.length "" ∧
      l'.format = Format.Float := by
  unfold Image.scaleByHalf at h
  split at h
  · simp [pure, Except.pure, Result.err, Result.ok] at h
  · cases hl : img.layerAt 0 with
    | error e => simp [hl, bind, Except.bind] at h
    | ok l =>
      simp only [hl, bind, Except.bind] at h
      by_cases hf : l.format = Format.Float
      · simp only [hf, if_true, pure, Except.pure, Except.ok.injEq] at h
        have hr : r = Image.mk1 (max (img.width.tdiv 2) 1) (max (img.height.tdiv 2) 1)
            (l.channels.length : Int) Format.Float
            (Image.scaleLoops fc img l (max (img.width.tdiv 2) 1) (max (img.height.tdiv 2) 1)
              (List.replicate ((max (img.width.tdiv 2) 1) * (max (img.height.tdiv 2) 1) *
                (l.channels.length : Int) * l.pixelSize).toNat 0)) := by
          have := congrArg Result.value_ h
          simp only [Result.ok, Option.some.injEq] at this
          exact this.symm
        generalize hnw : max (img.width.tdiv 2) 1 = nw at hr
        generalize hnh : max (img.height.tdiv 2) 1 = nh at hr
        have hnw1 : 1 ≤ nw := by rw [← hnw]; exact le_max_right _ _
        have hnh1 : 1 ≤ nh := by rw [← hnh]; exact le_max_right _ _
        have hps : l.pixelSize = 4 := by simp [Layer.pixelSize, hf]
        have hlen0 : (List.replicate (nw * nh * (l.channels.length : Int) * l.pixelSize).toNat
            0).length = nh.toNat * nw.toNat * l.channels.length * 4 := by
          rw [List.length_replicate, hps]
          have e1 : nw = ((nw.toNat : Nat) : Int) := by omega
          have e2 : nh = ((nh.toNat : Nat) : Int) := by omega
          have e3 : nw * nh * (l.channels.length : Int) * 4 =
              ((nh.toNat * nw.toNat * l.channels.length * 4 : Nat) : Int) := by
            push_cast
            rw [← e1, ← e2]
            ring
          rw [e3, Int.toNat_ofNat]
        refine ⟨?_, l, _, rfl, by rw [hr]; rfl, by simp [Int.toNat_ofNat], rfl⟩
        intro l' hl'
        rw [hr] at hl' ⊢
        simp only [Image.mk1, List.mem_singleton] at hl'
        subst hl'
        show (((Image.scaleLoops fc img l nw nh _).length : Nat) : Int) = _
        rw [length_scaleLoops fc img l nw nh _ hlen0, hlen0]
        show ((nh.toNat * nw.toNat * l.channels.length * 4 : Nat) : Int) =
          nw * nh * (((resize ["R", "G", "B", "A"] ((l.channels.length : Int).toNat)
            "").length : Nat) : Int) * 4
        have e1 : nw = ((nw.toNat : Nat) : Int) := by omega
        have e2 : nh = ((nh.toNat : Nat) : Int) := by omega
        rw [length_resize, Int.toNat_ofNat]
        push_cast
        rw [← e1, ← e2]
        ring
      · simp [hf, pure, Except.pure, Result.err, Result.ok] at h

/-- C20 (the code at the failing input): the 2x1 image with one Float layer of the six
distinct channels U, V, X, Y, Z, W satisfies both data-model invariants and `scaleByHalf`
succeeds on it, but the channels of the returned image are R, G, B, A and two empty
names, which are not pairwise distinct; the buffer-size invariant holds for it. -/
theorem scaleByHalf_six_channels (fc : FloatCodec) :
    imageSix2x1.BufferInvariant ∧ imageSix2x1.ChannelInvariant ∧
    ∃ r l', imageSix2x1.scaleByHalf fc = Except.ok (Result.ok r) ∧
      r.layers = [l'] ∧ l'.channels = ["R", "G", "B", "A", "", ""] ∧
      r.BufferInvariant ∧ ¬ r.ChannelInvariant := by
  have hinv : imageSix2x1.BufferInvariant := by
    intro l hl
    simp only [imageSix2x1, List.mem_singleton] at hl
    subst hl
    decide
  have hch : imageSix2x1.ChannelInvariant := by
    intro l hl
    simp only [imageSix2x1, List.mem_singleton] at hl
    subst hl
    decide
  obtain ⟨r, hr, _⟩ := scaleByHalf_float fc imageSix2x1 rfl (by decide)
  obtain ⟨hbuf, l, l', hl, hlayers, hchan, _⟩ := scaleByHalf_result fc imageSix2x1 r hr
  have hl0 : l.channels.length = 6 := by
    have : imageSix2x1.layerAt 0 = Except.ok
        { name := "UVXYZW", channels := ["U", "V", "X", "Y", "Z", "W"],
          format := Format.Float, data := List.replicate 48 0 } := rfl
    rw [this] at hl
    injection hl with hl
    rw [← hl]
    rfl
  have hnames : l'.channels = ["R", "G", "B", "A", "", ""] := by
    rw [hchan, hl0]
    decide
  refine ⟨hinv, hch, r, l', hr, hlayers, hnames, hbuf, ?_⟩
  intro hc
  have := (hc l' (by rw [hlayers]; exact List.mem_singleton_self _)).2
  rw [hnames] at this
  revert this
  decide

/-! ## Layer reconstruction: the registered channel names -/

theorem mapFind_of_mem (m : LayerMap) (hs : KeysSorted m) (k : String) (v : List String)
    (h : (k, v) ∈ m) : mapFind m k = some v := by
  induction m with
  | nil => exact absurd h (List.not_mem_nil _)
  | cons e m ih =>
    obtain ⟨k₀, v₀⟩ := e
    have hs' := List.pairwise_cons.mp hs
    rw [mapFind_cons]
    rcases List.mem_cons.mp h with h1 | h1
    · injection h1 with hk hv
      rw [if_pos hk.symm, hv]
    · have hlt : strLt k₀ k = true := hs'.1 (k, v) h1
      have hne : ¬ k₀ = k := by
        intro hc
        rw [hc, strLt_irrefl] at hlt
        exact Bool.false_ne_true hlt
      rw [if_neg hne]
      exact ih hs'.2 h1

theorem sortChannels_perm_group (g : List String) (hg : g.Nodup) :
    (sortChannels g).Perm g := by
  have h1 : (channelOrder.filter (fun o => decide (o ∈ g))).Perm
      (g.filter (fun c => decide (c ∈ channelOrder))) := by
    rw [List.perm_ext_iff_of_nodup ((by decide : channelOrder.Nodup).filter _) (hg.filter _)]
    intro a
    simp only [List.mem_filter, decide_eq_true_eq]
    exact ⟨fun h => ⟨h.2, h.1⟩, fun h => ⟨h.2, h.1⟩⟩
  have h2 : (g.filter (fun c => decide (c ∈ channelOrder)) ++
      g.filter (fun c => !decide (c ∈ channelOrder))).Perm g :=
    List.filter_append_perm (fun c => decide (c ∈ channelOrder)) g
  have h3 : g.filter (fun c => !decide (c ∈ channelOrder)) =
      g.filter (fun c => decide (c ∉ channelOrder)) := by
    apply List.filter_congr
    intro x _
    simp
  have h2' : (g.filter (fun c => decide (c ∈ channelOrder)) ++
      g.filter (fun c => decide (c ∉ channelOrder))).Perm g := by
    rw [← h3]
    exact h2
  rw [sortChannels_eq g hg]
  exact List.Perm.trans (List.Perm.append_right _ h1) h2'

theorem mem_channelsOf (k c : String) (names : List String) :
    c ∈ channelsOf k names ↔ ∃ n ∈ names, (splitName n).1 = k ∧ (splitName n).2 = c := by
  unfold channelsOf
  simp only [List.mem_map, List.mem_filter, decide_eq_true_eq]
  constructor
  · rintro ⟨n, ⟨hn, hk⟩, hc⟩
    exact ⟨n, hn, hk, hc⟩
  · rintro ⟨n, hn, hk, hc⟩
    exact ⟨n, ⟨hn, hk⟩, hc⟩

/-- An entry of the reconstructed layers holds the ordered channels of its key. -/
theorem mem_reconstructLayers (names : List String) (k : String) (cs : List String)
    (h : (k, cs) ∈ reconstructLayers names) :
    cs = sortChannels (channelsOf k names) := by
  have hf := mapFind_of_mem _ (keysSorted_reconstructLayers names) k cs h
  rw [mapFind_reconstructLayers] at hf
  by_cases hnil : channelsOf k names = []
  · rw [if_pos hnil] at hf
    exact absurd hf (Option.some_ne_none cs).symm
  · rw [if_neg hnil] at hf
    exact (Option.some.inj hf).symm

theorem string_append_left_cancel (k a b : String) (h : k ++ a = k ++ b) : a = b := by
  have hd := congrArg String.data h
  simp only [String.data_append] at hd
  exact String.ext (List.append_cancel_left hd)

/-- A registered name of the layer with key `k` is an input name whose layer-name part
is `k`. -/
theorem registered_of_layer (names : List String) (hd : names.Nodup) (k : String)
    (cs : List String) (h : (k, cs) ∈ reconstructLayers names) (x : String) :
    x ∈ cs.map (fun c => k ++ c) ↔ x ∈ names ∧ (splitName x).1 = k := by
  have hcs := mem_reconstructLayers names k cs h
  have hperm := sortChannels_perm_group _ (channelsOf_nodup k names hd)
  rw [List.mem_map]
  constructor
  · rintro ⟨c, hc, rfl⟩
    rw [hcs] at hc
    obtain ⟨n, hn, hk, hcn⟩ := (mem_channelsOf k c names).mp (hperm.mem_iff.mp hc)
    have hx : k ++ c = n := by rw [← hk, ← hcn]; exact splitName_append n
    rw [hx]
    exact ⟨hn, hk⟩
  · rintro ⟨hx, hk⟩
    refine ⟨(splitName x).2, ?_, ?_⟩
    · rw [hcs]
      exact hperm.mem_iff.mpr ((mem_channelsOf k _ names).mpr ⟨x, hx, hk, rfl⟩)
    · rw [← hk]
      exact splitName_append x

theorem mem_registeredNames (names : List String) (hd : names.Nodup) (x : String) :
    x ∈ registeredNames names ↔ x ∈ names := by
  unfold registeredNames
  rw [List.mem_flatten]
  constructor
  · rintro ⟨l, hl, hx⟩
    obtain ⟨e, he, rfl⟩ := List.mem_map.mp hl
    exact ((registered_of_layer names hd e.1 e.2 he x).mp hx).1
  · intro hx
    have hkey : (splitName x).1 ∈ (reconstructLayers names).map Prod.fst :=
      (mem_keys_reconstructLayers names _).mpr ⟨x, hx, rfl⟩
    obtain ⟨e, he, hek⟩ := List.mem_map.mp hkey
    refine ⟨e.2.map (fun c => e.1 ++ c), List.mem_map.mpr ⟨e, he, rfl⟩, ?_⟩
    exact (registered_of_layer names hd e.1 e.2 he x).mpr ⟨hx, hek.symm⟩

theorem nodup_registeredNames (names : List String) (hd : names.Nodup) :
    (registeredNames names).Nodup := by
  unfold registeredNames
  rw [List.nodup_flatten]
  constructor
  · intro l hl
    obtain ⟨e, he, rfl⟩ := List.mem_map.mp hl
    have hcs := mem_reconstructLayers names e.1 e.2 he
    have hnd : e.2.Nodup := by
      rw [hcs]
      exact (sortChannels_perm_group _ (channelsOf_nodup e.1 names hd)).nodup_iff.mpr
        (channelsOf_nodup e.1 names hd)
    exact hnd.map (fun a b hab => string_append_left_cancel e.1 a b hab)
  · rw [List.pairwise_map]
    have hs : List.Pairwise (fun a b : String × List String => strLt a.1 b.1 = true)
        (reconstructLayers names) := keysSorted_reconstructLayers names
    refine List.Pairwise.imp_of_mem ?_ hs
    intro a b ha hb hab x hxa hxb
    have h1 := ((registered_of_layer names hd a.1 a.2 ha x).mp hxa).2
    have h2 := ((registered_of_layer names hd b.1 b.2 hb x).mp hxb).2
    rw [← h1, ← h2, strLt_irrefl] at hab
    exact Bool.false_ne_true hab

/-- C21: for pairwise distinct channel names, the names registered with the reader,
layer-name key followed by channel name over every channel of every reconstructed layer,
are the input names, each exactly once: a permutation of the input without repetition,
in which every input name occurs once and nothing else occurs. -/
theorem registeredNames_perm (names : List String) (hd : names.Nodup) :
    (registeredNames names).Perm names ∧
    (registeredNames names).Nodup ∧
    (∀ x, x ∈ registeredNames names ↔ x ∈ names) ∧
    (∀ x ∈ names, (registeredNames names).count x = 1) ∧
    (registeredNames names).length = names.length := by
  have hnd := nodup_registeredNames names hd
  have hmem := mem_registeredNames names hd
  have hperm : (registeredNames names).Perm names :=
    (List.perm_ext_iff_of_nodup hnd hd).mpr hmem
  exact ⟨hperm, hnd, hmem,
    fun x hx => List.count_eq_one_of_mem hnd ((hmem x).mpr hx), hperm.length_eq⟩

/-- Witness for C21: the seven names of the spec's example. -/
theorem registeredNames_perm_witness :
    (registeredNames
      ["R", "G", "B", "diffuse.R", "diffuse.G", "diffuse.B", "depth.Z"]).Perm
      ["R", "G", "B", "diffuse.R", "diffuse.G", "diffuse.B", "depth.Z"] ∧
    (registeredNames
      ["R", "G", "B", "diffuse.R", "diffuse.G", "diffuse.B", "depth.Z"]).Nodup ∧
    (∀ x, x ∈ registeredNames
        ["R", "G", "B", "diffuse.R", "diffuse.G", "diffuse.B", "depth.Z"] ↔
      x ∈ ["R", "G", "B", "diffuse.R", "diffuse.G", "diffuse.B", "depth.Z"]) ∧
    (∀ x ∈ ["R", "G", "B", "diffuse.R", "diffuse.G", "diffuse.B", "depth.Z"],
      (registeredNames
        ["R", "G", "B", "diffuse.R", "diffuse.G", "diffuse.B", "depth.Z"]).count x = 1) ∧
    (registeredNames
      ["R", "G", "B", "diffuse.R", "diffuse.G", "diffuse.B", "depth.Z"]).length =
      ["R", "G", "B", "diffuse.R", "diffuse.G", "diffuse.B", "depth.Z"].length :=
  registeredNames_perm ["R", "G", "B", "diffuse.R", "diffuse.G", "diffuse.B", "depth.Z"]
    (by decide)

end hdrv
